import Mathlib

/-!
Verification development for the rustfuck brainfuck compiler/interpreter.

This file gives a shallow embedding of the front end (src/front_end/parser.rs),
the optimizer passes (src/optimizer/), the tree-walking interpreter
(src/interpreter/mod.rs) and the cell-arithmetic constants of the LLVM code
generator (src/compiler/mod.rs), and proves properties of these embeddings.

Machine integers are modelled as `Nat`:
* `u8` cell arithmetic carries its wraparound explicitly (`% 256`), mirroring
  `wrapping_add` / `wrapping_sub` and the `as u8` casts of the source;
* the `usize` tape index is modelled as an unbounded natural number (its
  2^64 wraparound is unreachable in any execution the claims speak about),
  except for the one subtraction `self.p -= amount` that can actually
  underflow: following the usual formalisation of Rust integer arithmetic,
  an underflowing `-=` is modelled as an abort (`RunStop.panicked`), since it
  is an arithmetic-overflow panic under debug assertions and never a normal
  `Err` return.
-/

namespace Rustfuck

/-- Token kinds, from src/src/front_end/lexer.rs (`enum TokenType`). -/
inductive TokenType : Type where
  | next
  | previous
  | increment
  | decrement
  | output
  | input
  | beginLoop
  | endLoop
deriving DecidableEq, Repr

/-- A lexed token with its source position, from src/src/front_end/lexer.rs
(`struct Token`). -/
structure Token : Type where
  token_type : TokenType
  line : Nat
  char : Nat
deriving DecidableEq, Repr

/-- Parse errors, from src/src/front_end/parser.rs (`enum ParsingError`). -/
inductive ParsingError : Type where
  | unmatchedBeginLoop (line char : Nat)
  | unmatchedEndLoop (line char : Nat)
deriving DecidableEq, Repr

/-- Instruction tree nodes, from src/src/front_end/parser.rs.  The Rust
`InstructionNode` is a struct holding a `NodeType` together with the source
`line`/`char` of the originating token; here each `NodeType` variant carries
those two position fields inline. -/
inductive Node : Type where
  | program (children : List Node) (line char : Nat)
  | next (amount : Nat) (line char : Nat)
  | previous (amount : Nat) (line char : Nat)
  | increment (amount : Nat) (line char : Nat)
  | decrement (amount : Nat) (line char : Nat)
  | output (line char : Nat)
  | input (line char : Nat)
  | loop (children : List Node) (line char : Nat)
  | setCell (val : Nat) (line char : Nat)
deriving Repr

/-- Structural induction principle for `Node` that hands the inductive
hypothesis to every member of a child list (the automatically generated
recursor of this nested inductive is awkward to use directly). -/
theorem Node.inductionOn (P : Node → Prop)
    (hprog : ∀ ch l c, (∀ x ∈ ch, P x) → P (.program ch l c))
    (hloop : ∀ ch l c, (∀ x ∈ ch, P x) → P (.loop ch l c))
    (hnext : ∀ a l c, P (.next a l c))
    (hprev : ∀ a l c, P (.previous a l c))
    (hinc : ∀ a l c, P (.increment a l c))
    (hdec : ∀ a l c, P (.decrement a l c))
    (hout : ∀ l c, P (.output l c))
    (hin : ∀ l c, P (.input l c))
    (hset : ∀ v l c, P (.setCell v l c)) : ∀ x, P x := by
  have H : ∀ n (y : Node), sizeOf y ≤ n → P y := by
    intro n
    induction n with
    | zero =>
      intro y hy
      cases y <;> simp at hy
    | succ n ih =>
      intro y hy
      cases y with
      | program ch l c =>
        refine hprog ch l c (fun z hz => ih z ?_)
        have hlt := List.sizeOf_lt_of_mem hz
        simp at hy
        omega
      | loop ch l c =>
        refine hloop ch l c (fun z hz => ih z ?_)
        have hlt := List.sizeOf_lt_of_mem hz
        simp at hy
        omega
      | next a l c => exact hnext a l c
      | previous a l c => exact hprev a l c
      | increment a l c => exact hinc a l c
      | decrement a l c => exact hdec a l c
      | output l c => exact hout l c
      | input l c => exact hin l c
      | setCell v l c => exact hset v l c
  exact fun x => H (sizeOf x) x le_rfl

/-! ## The parser, from src/src/front_end/parser.rs

The Rust parser walks a token slice with a mutable index.  Here each function
takes the remaining token list and returns the remaining suffix after the
tokens it consumed; the suffix carries a length bound used for termination.
`parse_token` embeds `ParsingContext::parse_token` (the trailing
`self.index += 1` of the Rust function is the `rest`/`Subtype.val.drop 1`
handed back), `parse_loop` embeds `ParsingContext::parse_loop` (which stops
with the closing `EndLoop` still unconsumed), and `parse_nodes` embeds the
`while !self.is_end()` loop of `ParsingContext::parse_all`. -/

mutual

def parse_token (t : Token) (rest : List Token) :
    Except ParsingError (Node × { l : List Token // l.length ≤ rest.length }) :=
  match t.token_type with
  | .next => .ok (.next 1 t.line t.char, ⟨rest, le_refl _⟩)
  | .previous => .ok (.previous 1 t.line t.char, ⟨rest, le_refl _⟩)
  | .increment => .ok (.increment 1 t.line t.char, ⟨rest, le_refl _⟩)
  | .decrement => .ok (.decrement 1 t.line t.char, ⟨rest, le_refl _⟩)
  | .output => .ok (.output t.line t.char, ⟨rest, le_refl _⟩)
  | .input => .ok (.input t.line t.char, ⟨rest, le_refl _⟩)
  | .beginLoop =>
    match parse_loop t.line t.char rest with
    | .error e => .error e
    | .ok (children, ⟨rest1, h⟩) =>
      .ok (.loop children t.line t.char,
        ⟨rest1.drop 1, by simpa using Nat.le_trans (Nat.sub_le _ _) h⟩)
  | .endLoop => .error (.unmatchedEndLoop t.line t.char)
termination_by rest.length * 2 + 1

def parse_loop (line char : Nat) (ts : List Token) :
    Except ParsingError (List Node × { l : List Token // l.length ≤ ts.length }) :=
  match ts with
  | [] => .error (.unmatchedBeginLoop line char)
  | t :: rest =>
    if t.token_type = .endLoop then
      .ok ([], ⟨t :: rest, le_refl _⟩)
    else
      match parse_token t rest with
      | .error e => .error e
      | .ok (node, ⟨rest1, h1⟩) =>
        match parse_loop line char rest1 with
        | .error e => .error e
        | .ok (children, ⟨rest2, h2⟩) =>
          .ok (node :: children, ⟨rest2, by simp; omega⟩)
termination_by ts.length * 2

end

/-- The `while !self.is_end()` loop of `ParsingContext::parse_all`. -/
def parse_nodes (ts : List Token) : Except ParsingError (List Node) :=
  match ts with
  | [] => .ok []
  | t :: rest =>
    match parse_token t rest with
    | .error e => .error e
    | .ok (node, ⟨rest1, _⟩) =>
      match parse_nodes rest1 with
      | .error e => .error e
      | .ok nodes => .ok (node :: nodes)
termination_by ts.length
decreasing_by simp; omega

/-- `parse`, from src/src/front_end/parser.rs: the whole token stream becomes
a `Program` node at synthetic position (0, 0). -/
def parse (tokens : List Token) : Except ParsingError Node :=
  (parse_nodes tokens).map fun nodes => .program nodes 0 0

/-- Proof-free view of `parse_loop` (the length bound stripped). -/
def parse_loop' (line char : Nat) (ts : List Token) :
    Except ParsingError (List Node × List Token) :=
  (parse_loop line char ts).map fun p => (p.1, p.2.val)

/-! ## The interpreter, from src/src/interpreter/mod.rs

The Rust interpreter walks the tree against a `Context { memory: Vec<u8>,
p: usize }`, writing bytes to an injected `ByteWriter` and reading from an
injected `ByteSource`.  We use the test-double instantiation of those
capabilities: the source replays a byte list (empty list = end of stream) and
the sink records the written bytes in order.  `St` bundles the context with
those two streams.  Cell values are `Nat`s, always written reduced mod 256
exactly where the source casts to `u8`.

Brainfuck loops need not terminate, so the recursive walk takes a fuel
argument that is spent once per loop iteration; running out of fuel is
reported through the artificial outcome `RunStop.outOfFuel`.  The other
outcomes mirror the source: `ok` for `Ok(())`, `err` for
`Err(InterpretationError)`, and `panicked` for the `usize` underflow abort in
`self.p -= amount` (the guard before it only catches `p == 0`).  The optional
per-instruction `sleep` of the source suspends the thread and touches no
state, so it has no counterpart here. -/

/-- From src/src/interpreter/mod.rs (`enum InterpretationError`). -/
inductive InterpretationError : Type where
  | pointerUnderflow
deriving DecidableEq, Repr

/-- How a run of the interpreter stopped (see the section comment). -/
inductive RunStop : Type where
  | ok
  | err (e : InterpretationError)
  | panicked
  | outOfFuel
deriving DecidableEq, Repr

/-- Machine state: the Rust `Context` (memory, p) plus the byte streams of
the injected `ByteSource` (remaining input) and `ByteWriter` (output so
far). -/
structure St : Type where
  memory : List Nat
  p : Nat
  input : List Nat
  output : List Nat
deriving DecidableEq, Repr

/-- `Context::expand_memory`: `while self.memory.len() <= self.p { push(0) }`. -/
def expand_memory (memory : List Nat) (p : Nat) : List Nat :=
  if memory.length ≤ p then expand_memory (memory ++ [0]) p else memory
termination_by p + 1 - memory.length
decreasing_by simp; omega

/-- Checked `usize` subtraction: `none` models the arithmetic-underflow
abort of `self.p -= amount` when `amount > p`. -/
def usize_sub (p a : Nat) : Option Nat :=
  if a ≤ p then some (p - a) else none

mutual

/-- `Context::interpret_node`.  The `Program`/`Loop` bodies are delegated to
`interpret_list` (the `for child in nodes` loops) and `interpret_loop` (the
`loop { ... }` construct). -/
def interpret_node (fuel : Nat) (node : Node) (st : St) : St × RunStop :=
  match node with
  | .program nodes _ _ => interpret_list fuel nodes st
  | .loop nodes _ _ => interpret_loop fuel nodes st
  | .next amount _ _ => ({ st with p := st.p + amount }, .ok)
  | .previous amount _ _ =>
    if st.p = 0 ∧ amount ≠ 0 then (st, .err .pointerUnderflow)
    else
      match usize_sub st.p amount with
      | some p1 => ({ st with p := p1 }, .ok)
      | none => (st, .panicked)
  | .increment amount _ _ =>
    let m := expand_memory st.memory st.p
    let cell := m.getD st.p 0
    ({ st with memory := m.set st.p ((cell + amount % 256) % 256) }, .ok)
  | .decrement amount _ _ =>
    let m := expand_memory st.memory st.p
    let cell := m.getD st.p 0
    ({ st with memory := m.set st.p ((cell + (256 - amount % 256)) % 256) }, .ok)
  | .output _ _ =>
    let m := expand_memory st.memory st.p
    ({ st with memory := m, output := st.output ++ [m.getD st.p 0] }, .ok)
  | .input _ _ =>
    let m := expand_memory st.memory st.p
    match st.input with
    | [] => ({ st with memory := m }, .ok)
    | b :: rest =>
      ({ st with memory := m.set st.p (b % 256), input := rest }, .ok)
  | .setCell val _ _ =>
    let m := expand_memory st.memory st.p
    ({ st with memory := m.set st.p (val % 256) }, .ok)
termination_by (fuel, sizeOf node, 0)

/-- The `for child in nodes { self.interpret_node(child, ..)? }` loops. -/
def interpret_list (fuel : Nat) (nodes : List Node) (st : St) : St × RunStop :=
  match nodes with
  | [] => (st, .ok)
  | n :: rest =>
    match interpret_node fuel n st with
    | (st1, .ok) => interpret_list fuel rest st1
    | (st1, .err e) => (st1, .err e)
    | (st1, .panicked) => (st1, .panicked)
    | (st1, .outOfFuel) => (st1, .outOfFuel)
termination_by (fuel, sizeOf nodes, 0)

/-- The `loop { expand; if mem[p] == 0 break; else run body }` of the
`NodeType::Loop` arm; each new iteration costs one unit of fuel. -/
def interpret_loop (fuel : Nat) (nodes : List Node) (st : St) : St × RunStop :=
  let m := expand_memory st.memory st.p
  if m.getD st.p 0 = 0 then ({ st with memory := m }, .ok)
  else
    match interpret_list fuel nodes { st with memory := m } with
    | (st1, .ok) =>
      if fuel = 0 then (st1, .outOfFuel) else interpret_loop (fuel - 1) nodes st1
    | (st1, .err e) => (st1, .err e)
    | (st1, .panicked) => (st1, .panicked)
    | (st1, .outOfFuel) => (st1, .outOfFuel)
termination_by (fuel, sizeOf nodes, 1)

end

/-- `interpret`, from src/src/interpreter/mod.rs: runs a tree on a fresh
context (`Vec::with_capacity(30000)` is an *empty* vector, `p = 0`) against
a given input byte list. -/
def interpret (node : Node) (inp : List Nat) (fuel : Nat) : St × RunStop :=
  interpret_node fuel node ⟨[], 0, inp, []⟩

/-! ## The optimizer, from src/src/optimizer/

`remove_comment_loop` and `collapse_set_zero` are embedded from their source
files.  The run-length merging passes share one shape: src/src/optimizer/
collapse_next.rs is in the sources, while collapse_increments.rs,
collapse_decrements.rs and collapse_previous.rs are declared in
src/src/optimizer/mod.rs but their files are not in the repository snapshot;
the spec (section 4.2) states they perform "identical run-length merging".
We therefore embed the shape of collapse_next.rs once, parameterised by
which single-amount node kind is being merged, and instantiate it four
times. -/

/-- `matches!(nodes[0].node_type, NodeType::Loop(_))`. -/
def isLoopNode : Node → Bool
  | .loop _ _ _ => true
  | _ => false

/-- The `while` loop of `remove_comment_loop`: drop leading `Loop` children. -/
def dropLeadingLoops : List Node → List Node
  | [] => []
  | n :: rest => if isLoopNode n then dropLeadingLoops rest else n :: rest

/-- `remove_comment_loop`, from src/src/optimizer/remove_comment_loop.rs:
strips any initial `Loop` children of a `Program` node. -/
def remove_comment_loop (program : Node) : Node :=
  match program with
  | .program nodes l c => .program (dropLeadingLoops nodes) l c
  | .loop ch l c => .loop ch l c
  | .next a l c => .next a l c
  | .previous a l c => .previous a l c
  | .increment a l c => .increment a l c
  | .decrement a l c => .decrement a l c
  | .output l c => .output l c
  | .input l c => .input l c
  | .setCell v l c => .setCell v l c

/-- Which node kind a run-length merging pass collapses. -/
inductive RunKind : Type where
  | next
  | previous
  | increment
  | decrement
deriving DecidableEq, Repr

/-- Build the node of this kind (the `InstructionNode` pushed on flushing
`current_incr`, with the recorded `current_line`/`current_char`). -/
def RunKind.make : RunKind → Nat → Nat → Nat → Node
  | .next, a, l, c => .next a l c
  | .previous, a, l, c => .previous a l c
  | .increment, a, l, c => .increment a l c
  | .decrement, a, l, c => .decrement a l c

/-- The `if let NodeType::Next(amount) = node.node_type` test: the amount and
position when the node is of this kind. -/
def RunKind.matchNode : RunKind → Node → Option (Nat × Nat × Nat)
  | .next, .next a l c => some (a, l, c)
  | .previous, .previous a l c => some (a, l, c)
  | .increment, .increment a l c => some (a, l, c)
  | .decrement, .decrement a l c => some (a, l, c)
  | _, _ => none

/-- Flush the pending merged run (`if let Some(incr) = current_incr.take()`). -/
def flushRun (k : RunKind) : Option (Nat × Nat × Nat) → List Node
  | some (a, l, c) => [k.make a l c]
  | none => []

mutual

/-- The shape of `collapse_next` from src/src/optimizer/collapse_next.rs,
parameterised by the collapsed kind; see the section comment. -/
def collapse_run (k : RunKind) (program : Node) : Node :=
  match program with
  | .program nodes l c => .program (collapse_node_list k nodes none) l c
  | .loop nodes l c => .loop (collapse_node_list k nodes none) l c
  | .next a l c => .next a l c
  | .previous a l c => .previous a l c
  | .increment a l c => .increment a l c
  | .decrement a l c => .decrement a l c
  | .output l c => .output l c
  | .input l c => .input l c
  | .setCell v l c => .setCell v l c
termination_by (sizeOf program, 0)

/-- The shape of `collapse_node_list` from src/src/optimizer/collapse_next.rs.
`pending` is the `current_incr`/`current_line`/`current_char` accumulator of
the Rust `for` loop. -/
def collapse_node_list (k : RunKind) (nodes : List Node)
    (pending : Option (Nat × Nat × Nat)) : List Node :=
  match nodes with
  | [] => flushRun k pending
  | node :: rest =>
    match k.matchNode node with
    | some (a, l, c) =>
      match pending with
      | some (a0, l0, c0) => collapse_node_list k rest (some (a0 + a, l0, c0))
      | none => collapse_node_list k rest (some (a, l, c))
    | none =>
      flushRun k pending ++ collapse_run k node :: collapse_node_list k rest none
termination_by (sizeOf nodes, 1)

end

/-- `collapse_next`, from src/src/optimizer/collapse_next.rs. -/
def collapse_next : Node → Node := collapse_run .next

/-- Modelled from the spec: src/src/optimizer/collapse_increments.rs is
declared in optimizer/mod.rs but missing from the snapshot; spec section 4.2
specifies run-length merging identical to collapse_next for `Increment`. -/
def collapse_increments : Node → Node := collapse_run .increment

/-- Modelled from the spec: src/src/optimizer/collapse_decrements.rs is
declared in optimizer/mod.rs but missing from the snapshot; spec section 4.2
specifies run-length merging identical to collapse_next for `Decrement`. -/
def collapse_decrements : Node → Node := collapse_run .decrement

/-- Modelled from the spec: src/src/optimizer/collapse_previous.rs is
declared in optimizer/mod.rs but missing from the snapshot; spec section 4.2
specifies run-length merging identical to collapse_next for `Previous`. -/
def collapse_previous : Node → Node := collapse_run .previous

/-- The `if let NodeType::Decrement(1) = children[0].node_type` test of
src/src/optimizer/collapse_set_zero.rs. -/
def isUnitDecrement : Node → Bool
  | .decrement a _ _ => a == 1
  | .program _ _ _ => false
  | .next _ _ _ => false
  | .previous _ _ _ => false
  | .increment _ _ _ => false
  | .output _ _ => false
  | .input _ _ => false
  | .loop _ _ _ => false
  | .setCell _ _ _ => false

mutual

/-- `collapse_set_zero`, from src/src/optimizer/collapse_set_zero.rs.  The
Rust `_ => ()` arm is spelled out per remaining constructor. -/
def collapse_set_zero (node : Node) : Node :=
  match node with
  | .program children l c => .program (collapse_nodes children) l c
  | .loop children l c => .loop (collapse_nodes children) l c
  | .next a l c => .next a l c
  | .previous a l c => .previous a l c
  | .increment a l c => .increment a l c
  | .decrement a l c => .decrement a l c
  | .output l c => .output l c
  | .input l c => .input l c
  | .setCell v l c => .setCell v l c
termination_by (sizeOf node, 0)

/-- The body of the `for node in nodes` loop of `collapse_nodes` in
src/src/optimizer/collapse_set_zero.rs, acting on one element: a `Loop`
whose body is exactly one child tests that child against `Decrement(1)`
(rewriting to `SetCell(0)` with the loop's position on a match; the inner
`if let` has no else branch, so a single non-matching child is left entirely
untouched); everything else is recursed into via `collapse_set_zero` (the
Rust `else`/non-`Loop` branches, spelled out per constructor). -/
def collapse_set_zero_node (node : Node) : Node :=
  match node with
  | .loop children l c =>
    if children.length = 1 then
      if isUnitDecrement (children.headD (.output 0 0)) then .setCell 0 l c
      else .loop children l c
    else collapse_set_zero (.loop children l c)
  | .program children l c => collapse_set_zero (.program children l c)
  | .next a l c => collapse_set_zero (.next a l c)
  | .previous a l c => collapse_set_zero (.previous a l c)
  | .increment a l c => collapse_set_zero (.increment a l c)
  | .decrement a l c => collapse_set_zero (.decrement a l c)
  | .output l c => collapse_set_zero (.output l c)
  | .input l c => collapse_set_zero (.input l c)
  | .setCell v l c => collapse_set_zero (.setCell v l c)
termination_by (sizeOf node, 1)

/-- `collapse_nodes` from src/src/optimizer/collapse_set_zero.rs: rewrite
each element of a child list in place. -/
def collapse_nodes (nodes : List Node) : List Node :=
  match nodes with
  | [] => []
  | n :: rest => collapse_set_zero_node n :: collapse_nodes rest
termination_by (sizeOf nodes, 0)

end

/-- `apply_default_optimizations`, from src/src/optimizer/mod.rs: the default
pipeline runs the passes in this fixed order. -/
def apply_default_optimizations (program : Node) : Node :=
  collapse_set_zero
    (collapse_previous
      (collapse_next
        (collapse_decrements
          (collapse_increments
            (remove_comment_loop program)))))

/-! ## Cell-arithmetic constants of the code generator,
from src/src/compiler/mod.rs -/

/-- From `build_increment` in src/src/compiler/mod.rs: the 8-bit amount
constant of the lowered `increment` runtime call is `amount as u64 % 255`
(the value is below 255, so the i8 truncation of `const_int` keeps it). -/
def build_increment_amount (amount : Nat) : Nat := amount % 255

/-- From `build_decrement` in src/src/compiler/mod.rs: the same mod-255
reduction of the amount constant for the lowered `decrement` call. -/
def build_decrement_amount (amount : Nat) : Nat := amount % 255

/-- From `Symbols::build_increment` in src/src/compiler/mod.rs: the runtime
`increment` routine adds its i8 amount argument to the addressed cell with
8-bit wraparound (`build_int_add` on i8). -/
def runtime_increment_cell (cell amt : Nat) : Nat := (cell + amt) % 256

/-- From `Symbols::build_decrement` in src/src/compiler/mod.rs: the runtime
`decrement` routine subtracts its i8 amount argument from the addressed cell
with 8-bit wraparound (`build_int_sub` on i8). -/
def runtime_decrement_cell (cell amt : Nat) : Nat :=
  (cell + (256 - amt % 256)) % 256

/-! ## Basic facts about `expand_memory` -/

theorem expand_memory_eq (m : List Nat) (p : Nat) :
    expand_memory m p = m ++ List.replicate (p + 1 - m.length) 0 := by
  have H : ∀ n (m : List Nat), p + 1 - m.length ≤ n →
      expand_memory m p = m ++ List.replicate (p + 1 - m.length) 0 := by
    intro n
    induction n with
    | zero =>
      intro m hm
      rw [expand_memory]
      have hlen : ¬ m.length ≤ p := by omega
      simp [hlen]
      omega
    | succ n ih =>
      intro m hm
      rw [expand_memory]
      by_cases hlen : m.length ≤ p
      · simp only [hlen, if_true]
        rw [ih (m ++ [0]) (by simp; omega)]
        have h1 : p + 1 - m.length = (p + 1 - (m ++ [0]).length) + 1 := by
          simp; omega
        rw [h1, List.replicate_succ, List.append_assoc]
        rfl
      · simp only [hlen, if_false]
        have : p + 1 - m.length = 0 := by omega
        simp [this]
  exact H _ m le_rfl

theorem expand_memory_length (m : List Nat) (p : Nat) :
    (expand_memory m p).length = max m.length (p + 1) := by
  rw [expand_memory_eq]
  simp
  omega

theorem expand_memory_getD (m : List Nat) (p i : Nat) :
    (expand_memory m p).getD i 0 = m.getD i 0 := by
  rw [expand_memory_eq]
  rw [List.getD_eq_getElem?_getD, List.getD_eq_getElem?_getD,
    List.getElem?_append]
  split
  · rfl
  · rename_i h
    rw [List.getElem?_eq_none (by omega : m.length ≤ i)]
    rw [List.getElem?_replicate]
    split <;> rfl

theorem expand_memory_p_lt (m : List Nat) (p : Nat) :
    p < (expand_memory m p).length := by
  rw [expand_memory_length]
  omega

/-! ## Claims C1, C2, C4, C8, C9, C10 -/

/-- Claim C1 (code_bug evidence): the two backends do not apply the same
modulus.  At amount 255 the interpreter adds `255 % 256 = 255` to the cell,
while the code generator's lowered amount constant is `255 % 255 = 0`, so
the generated runtime call leaves a zero cell at 0 where the interpreter
produces 255.  The claim (and the spec's stated intent) is mod 256 on both
sides. -/
theorem C1_amount_modulus_divergence :
    build_increment_amount 255 = 0 ∧
    runtime_increment_cell 0 (build_increment_amount 255) = 0 ∧
    build_decrement_amount 255 = 0 ∧
    interpret_node 0 (.increment 255 0 0) ⟨[], 0, [], []⟩ =
      (⟨[255], 0, [], []⟩, .ok) ∧
    build_increment_amount 255 ≠ 255 % 256 := by
  refine ⟨rfl, rfl, rfl, ?_, by decide⟩
  simp [interpret_node, expand_memory_eq]

/-- Claim C2 (code_bug evidence): the interpreter's `Previous` guard only
checks `p == 0`, so decrementing by 2 from index 1 does not return the
`PointerUnderflow` error the claim (and spec) require — the `usize`
subtraction aborts instead.  The second conjunct shows the true part of the
claim: the program consisting of one `<` on a fresh machine does report
pointer underflow and performs no output. -/
theorem C2_previous_guard_gap :
    interpret_node 0 (.previous 2 0 0) ⟨[0, 0], 1, [], []⟩ =
      (⟨[0, 0], 1, [], []⟩, .panicked) ∧
    interpret (.program [.previous 1 1 1] 0 0) [] 0 =
      (⟨[], 0, [], []⟩, .err .pointerUnderflow) := by
  constructor <;>
    simp [interpret, interpret_node, interpret_list, usize_sub]

/-- Claim C4 (counterexample): in `[[-]]` the inner zeroing loop is the sole
child of the outer loop; `collapse_set_zero` leaves the whole tree unchanged
(the pass does not recurse into a single-child loop body), contradicting the
claim that every nested `Loop` with body `Decrement(1)` is replaced by
`SetCell(0)`. -/
theorem C4_nested_sole_child_counterexample :
    collapse_set_zero
        (.program [.loop [.loop [.decrement 1 0 0] 0 0] 0 0] 0 0) =
      .program [.loop [.loop [.decrement 1 0 0] 0 0] 0 0] 0 0 ∧
    collapse_set_zero
        (.program [.loop [.loop [.decrement 1 0 0] 0 0] 0 0] 0 0) ≠
      .program [.loop [.setCell 0 0 0] 0 0] 0 0 := by
  constructor <;>
    simp [collapse_set_zero, collapse_nodes, collapse_set_zero_node, isUnitDecrement]

/-- Claim C4 (amended): the zeroing-loop pass recurses into `Program` bodies
and into `Loop` bodies with child count other than one; a `Loop` whose body
is exactly `[Decrement(1)]` is rewritten to `SetCell(0)` wherever the pass
visits it, but a single-child loop body whose child is not `Decrement(1)` is
left entirely untouched — in particular a zeroing loop that is the sole
child of an outer loop is not rewritten. -/
theorem C4_recursion_behaviour :
    (∀ a b l c, collapse_set_zero_node (.loop [.decrement 1 a b] l c) =
      .setCell 0 l c) ∧
    (∀ ch l c, ch.length ≠ 1 →
      collapse_set_zero_node (.loop ch l c) = .loop (collapse_nodes ch) l c) ∧
    (∀ x l c, (∀ a b, x ≠ .decrement 1 a b) →
      collapse_set_zero_node (.loop [x] l c) = .loop [x] l c) := by
  refine ⟨fun a b l c => by simp [collapse_set_zero_node, isUnitDecrement], ?_, ?_⟩
  · intro ch l c h
    match ch, h with
    | [], _ =>
      simp [collapse_set_zero_node, isUnitDecrement]
      rw [collapse_set_zero]
    | [x], h => simp at h
    | x :: y :: ys, _ =>
      simp [collapse_set_zero_node, isUnitDecrement]
      rw [collapse_set_zero]
  · intro x l c h
    cases x with
    | decrement a l1 c1 =>
      match a, h with
      | 0, _ => simp [collapse_set_zero_node, isUnitDecrement]
      | 1, h => exact absurd rfl (h l1 c1)
      | n + 2, _ => simp [collapse_set_zero_node, isUnitDecrement]
    | program ch l1 c1 => simp [collapse_set_zero_node, isUnitDecrement]
    | next a l1 c1 => simp [collapse_set_zero_node, isUnitDecrement]
    | previous a l1 c1 => simp [collapse_set_zero_node, isUnitDecrement]
    | increment a l1 c1 => simp [collapse_set_zero_node, isUnitDecrement]
    | output l1 c1 => simp [collapse_set_zero_node, isUnitDecrement]
    | input l1 c1 => simp [collapse_set_zero_node, isUnitDecrement]
    | loop ch l1 c1 => simp [collapse_set_zero_node, isUnitDecrement]
    | setCell v l1 c1 => simp [collapse_set_zero_node, isUnitDecrement]

/-- Claim C4 amended-theorem witness at concrete inputs. -/
theorem C4_recursion_behaviour_witness :
    collapse_set_zero_node (.loop [.decrement 1 5 6] 7 8) = .setCell 0 7 8 ∧
    collapse_set_zero_node (.loop [.output 1 2] 7 8) = .loop [.output 1 2] 7 8 := by
  refine ⟨C4_recursion_behaviour.1 5 6 7 8,
    C4_recursion_behaviour.2.2 (.output 1 2) 7 8 ?_⟩
  intro a b h
  exact Node.noConfusion h

/-- Claim C8: the zeroing-loop rewrite matches exactly the single
`Decrement(1)` body: a loop with body `[Decrement(n)]` becomes `SetCell(0)`
when `n = 1` and is left as the same loop otherwise (in particular the
`[--]` body `Decrement(2)` is not rewritten). -/
theorem C8_zeroing_loop_exact_match (n a b l c L C : Nat) :
    collapse_set_zero (.program [.loop [.decrement n a b] l c] L C) =
      .program
        [if n = 1 then .setCell 0 l c else .loop [.decrement n a b] l c]
        L C := by
  match n with
  | 0 => simp [collapse_set_zero, collapse_nodes, collapse_set_zero_node, isUnitDecrement]
  | 1 => simp [collapse_set_zero, collapse_nodes, collapse_set_zero_node, isUnitDecrement]
  | m + 2 => simp [collapse_set_zero, collapse_nodes, collapse_set_zero_node, isUnitDecrement]

/-- Claim C9: executing `Input` with the source at end-of-stream returns
`Ok`, leaves the current cell's value unchanged (memory is only zero-padded
up to the index), produces no output and does not move the pointer; and the
program `,.` on a fresh machine with empty input outputs exactly the byte 0. -/
theorem C9_input_eof (fuel l c : Nat) (st : St) (h : st.input = []) :
    interpret_node fuel (.input l c) st =
      ({ st with memory := expand_memory st.memory st.p }, .ok) ∧
    (expand_memory st.memory st.p).getD st.p 0 = st.memory.getD st.p 0 ∧
    interpret (.program [.input 1 1, .output 1 2] 0 0) [] fuel =
      (⟨[0], 0, [], [0]⟩, .ok) := by
  refine ⟨?_, expand_memory_getD _ _ _, ?_⟩
  · rw [interpret_node]
    simp [h]
  · simp [interpret, interpret_node, interpret_list, expand_memory_eq]

/-- Claim C9 witness at a concrete state. -/
theorem C9_input_eof_witness :
    interpret_node 3 (.input 1 1) ⟨[7], 2, [], [9]⟩ =
      (⟨[7, 0, 0], 2, [], [9]⟩, .ok) ∧
    (expand_memory [7] 2).getD 2 0 = ([7] : List Nat).getD 2 0 ∧
    interpret (.program [.input 1 1, .output 1 2] 0 0) [] 3 =
      (⟨[0], 0, [], [0]⟩, .ok) := by
  have h := C9_input_eof 3 1 1 ⟨[7], 2, [], [9]⟩ rfl
  refine ⟨?_, h.2.1, h.2.2⟩
  rw [h.1]
  simp [expand_memory_eq]

/-- Claim C10: interpreting `Next(a)` always returns `Ok`, adds exactly `a`
to the index, and leaves memory, input and output untouched — in particular
the cell sequence is not grown by `Next` itself. -/
theorem C10_next_frame (fuel a l c : Nat) (st : St) :
    interpret_node fuel (.next a l c) st = ({ st with p := st.p + a }, .ok) := by
  rw [interpret_node]

/-! ## Reference bracket scan, for stating the parser claims

The claims C6/C7 speak of "balanced brackets", "an EndLoop with no open loop
in progress" and "the opening bracket whose loop runs out of tokens".  These
notions are formalised through a reference left-to-right depth scan of the
token stream, independent of the parser. -/

/-- Scan the stream with `d` loops currently open; the result is `none` the
moment an `EndLoop` arrives with no loop open, and otherwise the number of
loops still open at the end. -/
def relScan : List Token → Nat → Option Nat
  | [], d => some d
  | t :: rest, d =>
    match t.token_type with
    | .beginLoop => relScan rest (d + 1)
    | .endLoop =>
      match d with
      | 0 => none
      | d1 + 1 => relScan rest d1
    | _ => relScan rest d

/-- The stack of still-open `BeginLoop` tokens after scanning `ts` starting
from `stack`, innermost (most recently opened) first.  Only used for streams
whose `relScan` is not `none`, so a pop never meets an exhausted stack. -/
def scanStack : List Token → List Token → List Token
  | [], stack => stack
  | t :: rest, stack =>
    match t.token_type with
    | .beginLoop => scanStack rest (t :: stack)
    | .endLoop => scanStack rest stack.tail
    | _ => scanStack rest stack

/-- Line of the innermost open bracket, with a default for an empty stack. -/
def stackTopLine : List Token → Nat → Nat
  | b :: _, _ => b.line
  | [], l => l

/-- Char of the innermost open bracket, with a default for an empty stack. -/
def stackTopChar : List Token → Nat → Nat
  | b :: _, _ => b.char
  | [], c => c

/-- Number of tokens of a given kind in a stream. -/
def countTokens (k : TokenType) : List Token → Nat
  | [] => 0
  | t :: rest => (if t.token_type = k then 1 else 0) + countTokens k rest

mutual

/-- Number of `Loop` nodes in a tree. -/
def countLoops (node : Node) : Nat :=
  match node with
  | .program ch _ _ => countLoopsList ch
  | .loop ch _ _ => countLoopsList ch + 1
  | _ => 0
termination_by (sizeOf node, 0)

def countLoopsList (nodes : List Node) : Nat :=
  match nodes with
  | [] => 0
  | n :: rest => countLoops n + countLoopsList rest
termination_by (sizeOf nodes, 1)

end

/-- Dyck-style decomposition of a balanced token stream: formalises "every
BeginLoop has a matching EndLoop and no EndLoop is unmatched". -/
inductive Balanced : List Token → Prop where
  | nil : Balanced []
  | flat (t : Token) (rest : List Token) :
      t.token_type ≠ .beginLoop → t.token_type ≠ .endLoop →
      Balanced rest → Balanced (t :: rest)
  | nest (b e : Token) (inside after : List Token) :
      b.token_type = .beginLoop → e.token_type = .endLoop →
      Balanced inside → Balanced after →
      Balanced (b :: (inside ++ e :: after))

theorem relScan_cons (t : Token) (rest : List Token) (d : Nat) :
    relScan (t :: rest) d =
      match t.token_type with
      | .beginLoop => relScan rest (d + 1)
      | .endLoop =>
        match d with
        | 0 => none
        | d1 + 1 => relScan rest d1
      | _ => relScan rest d := rfl

theorem scanStack_cons (t : Token) (rest stack : List Token) :
    scanStack (t :: rest) stack =
      match t.token_type with
      | .beginLoop => scanStack rest (t :: stack)
      | .endLoop => scanStack rest stack.tail
      | _ => scanStack rest stack := rfl

theorem relScan_append (xs ys : List Token) (d : Nat) :
    relScan (xs ++ ys) d =
      match relScan xs d with
      | some m => relScan ys m
      | none => none := by
  induction xs generalizing d with
  | nil => rfl
  | cons t rest ih =>
    rw [List.cons_append, relScan_cons, relScan_cons]
    cases ht : t.token_type
    case beginLoop => simp only; exact ih (d + 1)
    case endLoop =>
      cases d with
      | zero => rfl
      | succ d1 => simp only; exact ih d1
    all_goals (simp only; exact ih d)

theorem scanStack_append (xs ys s : List Token) :
    scanStack (xs ++ ys) s = scanStack ys (scanStack xs s) := by
  induction xs generalizing s with
  | nil => rfl
  | cons t rest ih =>
    rw [List.cons_append, scanStack, scanStack]
    cases ht : t.token_type <;> simp only <;> exact ih _

theorem countTokens_append (k : TokenType) (xs ys : List Token) :
    countTokens k (xs ++ ys) = countTokens k xs + countTokens k ys := by
  induction xs with
  | nil => simp [countTokens]
  | cons t rest ih =>
    rw [List.cons_append, countTokens, countTokens, ih]
    omega

/-- Scanning a balanced stream leaves any starting stack unchanged. -/
theorem scanStack_balanced {ts : List Token} (h : Balanced ts) :
    ∀ s, scanStack ts s = s := by
  induction h with
  | nil => intro s; rfl
  | flat t rest h1 h2 _ ih =>
    intro s
    rw [scanStack]
    cases ht : t.token_type
    case beginLoop => exact absurd ht h1
    case endLoop => exact absurd ht h2
    all_goals (simp only; exact ih s)
  | nest b e inside after hb he _ _ ih1 ih2 =>
    intro s
    rw [scanStack_cons, hb]
    simp only
    rw [scanStack_append, ih1, scanStack_cons, he]
    simp only [List.tail_cons]
    exact ih2 s

/-- While no close reaches depth 0, the part of the stack below the scanned
depth is never touched. -/
theorem scanStack_floor : ∀ (ts : List Token) (k d : Nat),
    relScan ts k = some d →
    ∀ s s1 : List Token, s.length = k →
      scanStack ts (s ++ s1) = scanStack ts s ++ s1 := by
  intro ts
  induction ts with
  | nil => intro k d _ s s1 _; rfl
  | cons t rest ih =>
    intro k d hscan s s1 hs
    rw [relScan_cons] at hscan
    rw [scanStack_cons, scanStack_cons]
    cases ht : t.token_type
    case beginLoop =>
      rw [ht] at hscan
      simp only at hscan ⊢
      rw [show t :: (s ++ s1) = (t :: s) ++ s1 from rfl]
      exact ih (k + 1) d hscan (t :: s) s1 (by simp [hs])
    case endLoop =>
      rw [ht] at hscan
      simp only at hscan ⊢
      cases k with
      | zero => exact absurd hscan (by simp)
      | succ k1 =>
        simp only at hscan
        match s, hs with
        | x :: s2, hs =>
          simp only [List.cons_append, List.tail_cons]
          exact ih k1 d hscan s2 s1 (by simpa using hs)
    all_goals (rw [ht] at hscan; simp only at hscan ⊢; exact ih k d hscan s s1 hs)

/-- The scan depth is the length of the open-bracket stack. -/
theorem scanStack_length : ∀ (ts : List Token) (k d : Nat),
    relScan ts k = some d →
    ∀ s : List Token, s.length = k → (scanStack ts s).length = d := by
  intro ts
  induction ts with
  | nil =>
    intro k d hscan s hs
    injection hscan with h
    rw [scanStack]
    omega
  | cons t rest ih =>
    intro k d hscan s hs
    rw [relScan_cons] at hscan
    rw [scanStack_cons]
    cases ht : t.token_type
    case beginLoop =>
      rw [ht] at hscan
      simp only at hscan ⊢
      exact ih (k + 1) d hscan (t :: s) (by simp [hs])
    case endLoop =>
      rw [ht] at hscan
      simp only at hscan ⊢
      cases k with
      | zero => exact absurd hscan (by simp)
      | succ k1 =>
        simp only at hscan
        match s, hs with
        | x :: s2, hs =>
          simp only [List.tail_cons]
          exact ih k1 d hscan s2 (by simpa using hs)
    all_goals (rw [ht] at hscan; simp only at hscan ⊢; exact ih k d hscan s hs)

/-- Splitting a scan that starts one level up: either the stream never
closes the current loop, or it splits at the first `EndLoop` that does. -/
theorem relScan_descend : ∀ (n : Nat) (ts : List Token), ts.length ≤ n →
    ∀ (d e : Nat), relScan ts (d + 1) = some e →
    (d + 1 ≤ e ∧ relScan ts d = some (e - 1)) ∨
    (∃ inside et after, ts = inside ++ et :: after ∧
      et.token_type = .endLoop ∧
      relScan inside (d + 1) = some (d + 1) ∧ relScan inside d = some d ∧
      relScan after d = some e) := by
  intro n
  induction n with
  | zero =>
    intro ts hlen d e hscan
    match ts, hlen with
    | [], _ =>
      injection hscan with h
      exact Or.inl ⟨by omega, by rw [relScan]; congr 1; omega⟩
  | succ n ih =>
    intro ts hlen d e hscan
    match ts with
    | [] =>
      injection hscan with h
      exact Or.inl ⟨by omega, by rw [relScan]; congr 1; omega⟩
    | t :: rest =>
      rw [relScan_cons] at hscan
      cases ht : t.token_type
      case endLoop =>
        rw [ht] at hscan
        simp only at hscan
        refine Or.inr ⟨[], t, rest, rfl, ht, rfl, rfl, hscan⟩
      case beginLoop =>
        rw [ht] at hscan
        simp only at hscan
        rcases ih rest (by simpa using hlen) (d + 1) e hscan with
          ⟨h1, h2⟩ | ⟨ins, et, aft, rfl, het, hins1, hins0, haft⟩
        · refine Or.inl ⟨by omega, ?_⟩
          rw [relScan_cons, ht]
          simpa using h2
        · rcases ih aft (by simp at hlen; omega) d e haft with
            ⟨h1, h2⟩ | ⟨ins2, et2, aft2, rfl, het2, hins21, hins20, haft2⟩
          · refine Or.inl ⟨by omega, ?_⟩
            rw [relScan_cons, ht]
            simp only
            rw [relScan_append, hins0]
            simp only
            rw [relScan_cons, het]
            simpa using h2
          · refine Or.inr ⟨t :: (ins ++ et :: ins2), et2, aft2, by simp, het2, ?_, ?_, haft2⟩
            · rw [relScan_cons, ht]
              simp only
              rw [relScan_append, hins1]
              simp only
              rw [relScan_cons, het]
              simpa using hins21
            · rw [relScan_cons, ht]
              simp only
              rw [relScan_append, hins0]
              simp only
              rw [relScan_cons, het]
              simpa using hins20
      all_goals
        (rw [ht] at hscan
         simp only at hscan
         rcases ih rest (by simpa using hlen) d e hscan with
           ⟨h1, h2⟩ | ⟨ins, et, aft, hrest, het, hins1, hins0, haft⟩
         · refine Or.inl ⟨h1, ?_⟩
           rw [relScan_cons, ht]
           simpa using h2
         · subst hrest
           refine Or.inr ⟨t :: ins, et, aft, rfl, het, ?_, ?_, haft⟩
           · rw [relScan_cons, ht]; simpa using hins1
           · rw [relScan_cons, ht]; simpa using hins0)

/-- A stream whose scan from depth 0 comes back to 0 is balanced. -/
theorem balanced_of_relScan : ∀ (n : Nat) (ts : List Token), ts.length ≤ n →
    relScan ts 0 = some 0 → Balanced ts := by
  intro n
  induction n with
  | zero =>
    intro ts hlen _
    match ts, hlen with
    | [], _ => exact .nil
  | succ n ih =>
    intro ts hlen hscan
    match ts with
    | [] => exact .nil
    | t :: rest =>
      rw [relScan_cons] at hscan
      cases ht : t.token_type
      case endLoop =>
        rw [ht] at hscan
        simp at hscan
      case beginLoop =>
        rw [ht] at hscan
        simp only at hscan
        rcases relScan_descend n rest (by simpa using hlen) 0 0 hscan with
          ⟨h1, _⟩ | ⟨ins, et, aft, rfl, het, _, hins0, haft⟩
        · omega
        · simp at hlen
          exact .nest t et ins aft ht het
            (ih ins (by omega) hins0) (ih aft (by omega) haft)
      all_goals
        (rw [ht] at hscan
         simp only at hscan
         exact .flat t rest (by simp [ht]) (by simp [ht])
           (ih rest (by simpa using hlen) hscan))

/-- In a balanced stream the bracket counts agree (each is the pair count). -/
theorem balanced_count {ts : List Token} (h : Balanced ts) :
    countTokens .beginLoop ts = countTokens .endLoop ts := by
  induction h with
  | nil => rfl
  | flat t rest h1 h2 _ ih =>
    rw [countTokens, countTokens, ih]
    simp [h1, h2]
  | nest b e inside after hb he _ _ ih1 ih2 =>
    rw [countTokens, countTokens]
    rw [countTokens_append, countTokens_append, countTokens, countTokens]
    rw [ih1, ih2]
    simp [hb, he]
    omega

/-! ### Step lemmas for the parser -/

theorem parse_token_flat (t : Token) (h1 : t.token_type ≠ .beginLoop)
    (h2 : t.token_type ≠ .endLoop) :
    ∃ node, countLoops node = 0 ∧
      ∀ rest, parse_token t rest = .ok (node, ⟨rest, le_refl _⟩) := by
  cases ht : t.token_type
  case beginLoop => exact absurd ht h1
  case endLoop => exact absurd ht h2
  case next =>
    exact ⟨.next 1 t.line t.char, by simp [countLoops],
      fun rest => by rw [parse_token, ht]⟩
  case previous =>
    exact ⟨.previous 1 t.line t.char, by simp [countLoops],
      fun rest => by rw [parse_token, ht]⟩
  case increment =>
    exact ⟨.increment 1 t.line t.char, by simp [countLoops],
      fun rest => by rw [parse_token, ht]⟩
  case decrement =>
    exact ⟨.decrement 1 t.line t.char, by simp [countLoops],
      fun rest => by rw [parse_token, ht]⟩
  case output =>
    exact ⟨.output t.line t.char, by simp [countLoops],
      fun rest => by rw [parse_token, ht]⟩
  case input =>
    exact ⟨.input t.line t.char, by simp [countLoops],
      fun rest => by rw [parse_token, ht]⟩

theorem parse_token_end (t : Token) (ht : t.token_type = .endLoop)
    (rest : List Token) :
    parse_token t rest = .error (.unmatchedEndLoop t.line t.char) := by
  rw [parse_token, ht]

theorem parse_token_begin_error {t : Token} {rest : List Token}
    {e : ParsingError} (ht : t.token_type = .beginLoop)
    (h : parse_loop' t.line t.char rest = .error e) :
    parse_token t rest = .error e := by
  rw [parse_token, ht]
  simp only
  rw [parse_loop'] at h
  cases hp : parse_loop t.line t.char rest with
  | error e1 =>
    rw [hp] at h
    simp [Except.map] at h
    rw [h]
  | ok p =>
    rw [hp] at h
    simp [Except.map] at h

theorem parse_token_begin_ok {t : Token} {rest : List Token}
    {ns : List Node} {r : List Token} (ht : t.token_type = .beginLoop)
    (h : parse_loop' t.line t.char rest = .ok (ns, r)) :
    ∃ hb, parse_token t rest = .ok (.loop ns t.line t.char, ⟨r.drop 1, hb⟩) := by
  rw [parse_loop'] at h
  cases hp : parse_loop t.line t.char rest with
  | error e1 =>
    rw [hp] at h
    simp [Except.map] at h
  | ok p =>
    rw [hp] at h
    simp only [Except.map, Except.ok.injEq] at h
    obtain ⟨ns1, rv, hrv⟩ := p
    simp only at h
    obtain ⟨h1, h2⟩ := Prod.mk.injEq .. ▸ h
    subst h1
    subst h2
    refine ⟨by simpa using Nat.le_trans (Nat.sub_le _ _) hrv, ?_⟩
    rw [parse_token, ht]
    simp only
    rw [hp]

theorem parse_nodes_cons {t : Token} {rest : List Token} {node : Node}
    {rest1 : List Token} {hb : rest1.length ≤ rest.length}
    (h : parse_token t rest = .ok (node, ⟨rest1, hb⟩)) :
    parse_nodes (t :: rest) =
      match parse_nodes rest1 with
      | .ok ns => .ok (node :: ns)
      | .error e => .error e := by
  rw [parse_nodes, h]
  dsimp only
  cases hp : parse_nodes rest1 <;> rfl

theorem parse_nodes_cons_error {t : Token} {rest : List Token}
    {e : ParsingError} (h : parse_token t rest = .error e) :
    parse_nodes (t :: rest) = .error e := by
  rw [parse_nodes, h]

theorem parse_loop_cons_end {l c : Nat} {t : Token} {rest : List Token}
    (ht : t.token_type = .endLoop) :
    parse_loop' l c (t :: rest) = .ok ([], t :: rest) := by
  rw [parse_loop', parse_loop]
  simp [ht, Except.map]

theorem parse_loop_cons_error {l c : Nat} {t : Token} {rest : List Token}
    {e : ParsingError} (ht : t.token_type ≠ .endLoop)
    (h : parse_token t rest = .error e) :
    parse_loop' l c (t :: rest) = .error e := by
  rw [parse_loop', parse_loop]
  simp [ht, h, Except.map]

theorem parse_loop_cons_ok {l c : Nat} {t : Token} {rest : List Token}
    {node : Node} {rest1 : List Token} {hb : rest1.length ≤ rest.length}
    (ht : t.token_type ≠ .endLoop)
    (h : parse_token t rest = .ok (node, ⟨rest1, hb⟩)) :
    parse_loop' l c (t :: rest) =
      match parse_loop' l c rest1 with
      | .ok p => .ok (node :: p.1, p.2)
      | .error e => .error e := by
  rw [parse_loop', parse_loop]
  simp only [ht, if_false, h]
  cases hp : parse_loop l c rest1 with
  | error e => rw [parse_loop', hp]; rfl
  | ok p =>
    obtain ⟨ns1, rv, hrv⟩ := p
    rw [parse_loop', hp]
    rfl

/-! ### The chunk lemma: a balanced prefix parses into a node list and the
parser continues on the remainder -/

theorem parse_chunk {ts : List Token} (hbal : Balanced ts) :
    ∃ chunk : List Node,
      countLoopsList chunk = countTokens .beginLoop ts ∧
      (∀ suffix, parse_nodes (ts ++ suffix) =
        match parse_nodes suffix with
        | .ok ns => .ok (chunk ++ ns)
        | .error e => .error e) ∧
      (∀ suffix l c, parse_loop' l c (ts ++ suffix) =
        match parse_loop' l c suffix with
        | .ok p => .ok (chunk ++ p.1, p.2)
        | .error e => .error e) := by
  induction hbal with
  | nil =>
    refine ⟨[], by rw [countLoopsList, countTokens], fun suffix => ?_,
      fun suffix l c => ?_⟩
    · rw [List.nil_append]
      cases h : parse_nodes suffix <;> rfl
    · rw [List.nil_append]
      cases h : parse_loop' l c suffix with
      | error e => rfl
      | ok p => simp
  | flat t rest h1 h2 hrest ih =>
    obtain ⟨chunk, hcount, hii, hiii⟩ := ih
    obtain ⟨node, hnode0, hnode⟩ := parse_token_flat t h1 h2
    refine ⟨node :: chunk, ?_, fun suffix => ?_, fun suffix l c => ?_⟩
    · rw [countLoopsList, hnode0, countTokens, hcount]
      simp [h1]
    · rw [List.cons_append, parse_nodes_cons (hnode (rest ++ suffix)), hii]
      cases h : parse_nodes suffix <;> rfl
    · rw [List.cons_append,
        parse_loop_cons_ok h2 (hnode (rest ++ suffix)), hiii]
      cases h : parse_loop' l c suffix <;> rfl
  | nest b e inside after hb he hin haf ih1 ih2 =>
    obtain ⟨chunkI, hcountI, _, hiiiI⟩ := ih1
    obtain ⟨chunkA, hcountA, hiiA, hiiiA⟩ := ih2
    have hbloop : ∀ tail, parse_loop' b.line b.char (inside ++ e :: tail) =
        .ok (chunkI, e :: tail) := by
      intro tail
      rw [hiiiI (e :: tail) b.line b.char, parse_loop_cons_end he]
      simp
    have hbtok : ∀ tail, ∃ hpb, parse_token b (inside ++ e :: tail) =
        .ok (.loop chunkI b.line b.char, ⟨tail, hpb⟩) := by
      intro tail
      obtain ⟨hpb, h⟩ := parse_token_begin_ok hb (hbloop tail)
      exact ⟨by simpa using hpb, by simpa using h⟩
    refine ⟨.loop chunkI b.line b.char :: chunkA, ?_, fun suffix => ?_,
      fun suffix l c => ?_⟩
    · rw [countLoopsList, countLoops, countTokens, countTokens_append,
        countTokens, hcountA, hcountI]
      simp [hb, he]
      omega
    · obtain ⟨hpb, htok⟩ := hbtok (after ++ suffix)
      rw [List.cons_append, List.append_assoc, List.cons_append,
        parse_nodes_cons htok, hiiA]
      cases h : parse_nodes suffix <;> rfl
    · obtain ⟨hpb, htok⟩ := hbtok (after ++ suffix)
      have hbne : b.token_type ≠ .endLoop := by simp [hb]
      rw [List.cons_append, List.append_assoc, List.cons_append,
        parse_loop_cons_ok hbne htok, hiiiA]
      cases h : parse_loop' l c suffix <;> rfl

/-- An open loop that is never closed: `parse_loop` reports the innermost
still-open bracket, or its own opening position if none opened inside. -/
theorem parse_loop_no_close : ∀ (n : Nat) (ts : List Token), ts.length ≤ n →
    ∀ (l c d : Nat), relScan ts 0 = some d →
    parse_loop' l c ts = .error (.unmatchedBeginLoop
      (stackTopLine (scanStack ts []) l) (stackTopChar (scanStack ts []) c)) := by
  intro n
  induction n with
  | zero =>
    intro ts hlen l c d hscan
    match ts, hlen with
    | [], _ => rw [parse_loop', parse_loop]; rfl
  | succ n ih =>
    intro ts hlen l c d hscan
    match ts with
    | [] => rw [parse_loop', parse_loop]; rfl
    | t :: rest =>
      rw [relScan_cons] at hscan
      cases ht : t.token_type
      case endLoop =>
        rw [ht] at hscan
        simp at hscan
      case beginLoop =>
        rw [ht] at hscan
        simp only at hscan
        rcases relScan_descend n rest (by simp at hlen; omega) 0 d hscan with
          ⟨hd1, hrest0⟩ | ⟨ins, et, aft, hre, het, hins1, hins0, haft⟩
        · have hinner := ih rest (by simp at hlen; omega) t.line t.char (d - 1) hrest0
          have htok := parse_token_begin_error ht hinner
          rw [parse_loop_cons_error (by simp [ht]) htok]
          have hstack : scanStack (t :: rest) [] = scanStack rest [] ++ [t] := by
            rw [scanStack_cons, ht]
            simp only
            simpa using scanStack_floor rest 0 (d - 1) hrest0 [] [t] rfl
          rw [hstack]
          cases hs : scanStack rest [] with
          | nil => rfl
          | cons b rest2 => rfl
        · subst hre
          have hbalins := balanced_of_relScan n ins (by simp at hlen; omega) hins0
          obtain ⟨chunkI, _, _, hiiiI⟩ := parse_chunk hbalins
          have hloop : parse_loop' t.line t.char (ins ++ et :: aft) =
              .ok (chunkI, et :: aft) := by
            rw [hiiiI (et :: aft) t.line t.char, parse_loop_cons_end het]
            simp
          obtain ⟨hpb, htok⟩ := parse_token_begin_ok ht hloop
          rw [parse_loop_cons_ok (by simp [ht]) htok]
          rw [show (et :: aft).drop 1 = aft from rfl] at *
          rw [ih aft (by simp at hlen; omega) l c d haft]
          have hstack : scanStack (t :: (ins ++ et :: aft)) [] = scanStack aft [] := by
            rw [scanStack_cons, ht]
            simp only
            rw [scanStack_append, scanStack_balanced hbalins, scanStack_cons, het]
            rfl
          rw [hstack]
      all_goals
        first
        | (rw [ht] at hscan
           simp only at hscan
           obtain ⟨node, _, hnode⟩ := parse_token_flat t (by simp [ht]) (by simp [ht])
           rw [parse_loop_cons_ok (by simp [ht]) (hnode rest)]
           rw [ih rest (by simp at hlen; omega) l c d hscan]
           have hstack : scanStack (t :: rest) [] = scanStack rest [] := by
             rw [scanStack_cons, ht]
           rw [hstack])

/-- An unmatched open loop seen from the top level. -/
theorem parse_nodes_open_loop : ∀ (n : Nat) (ts : List Token), ts.length ≤ n →
    ∀ d : Nat, relScan ts 0 = some d → 1 ≤ d →
    parse_nodes ts = .error (.unmatchedBeginLoop
      (stackTopLine (scanStack ts []) 0) (stackTopChar (scanStack ts []) 0)) := by
  intro n
  induction n with
  | zero =>
    intro ts hlen d hscan hd
    match ts, hlen with
    | [], _ =>
      injection hscan with h
      omega
  | succ n ih =>
    intro ts hlen d hscan hd
    match ts with
    | [] =>
      injection hscan with h
      omega
    | t :: rest =>
      rw [relScan_cons] at hscan
      cases ht : t.token_type
      case endLoop =>
        rw [ht] at hscan
        simp at hscan
      case beginLoop =>
        rw [ht] at hscan
        simp only at hscan
        rcases relScan_descend n rest (by simp at hlen; omega) 0 d hscan with
          ⟨hd1, hrest0⟩ | ⟨ins, et, aft, hre, het, hins1, hins0, haft⟩
        · have hinner := parse_loop_no_close n rest (by simp at hlen; omega)
            t.line t.char (d - 1) hrest0
          have htok := parse_token_begin_error ht hinner
          rw [parse_nodes_cons_error htok]
          have hstack : scanStack (t :: rest) [] = scanStack rest [] ++ [t] := by
            rw [scanStack_cons, ht]
            simp only
            simpa using scanStack_floor rest 0 (d - 1) hrest0 [] [t] rfl
          rw [hstack]
          cases hs : scanStack rest [] with
          | nil => rfl
          | cons b rest2 => rfl
        · subst hre
          have hbalins := balanced_of_relScan n ins (by simp at hlen; omega) hins0
          obtain ⟨chunkI, _, _, hiiiI⟩ := parse_chunk hbalins
          have hloop : parse_loop' t.line t.char (ins ++ et :: aft) =
              .ok (chunkI, et :: aft) := by
            rw [hiiiI (et :: aft) t.line t.char, parse_loop_cons_end het]
            simp
          obtain ⟨hpb, htok⟩ := parse_token_begin_ok ht hloop
          rw [parse_nodes_cons htok]
          rw [show (et :: aft).drop 1 = aft from rfl] at *
          rw [ih aft (by simp at hlen; omega) d haft hd]
          have hstack : scanStack (t :: (ins ++ et :: aft)) [] = scanStack aft [] := by
            rw [scanStack_cons, ht]
            simp only
            rw [scanStack_append, scanStack_balanced hbalins, scanStack_cons, het]
            rfl
          rw [hstack]
      all_goals
        first
        | (rw [ht] at hscan
           simp only at hscan
           obtain ⟨node, _, hnode⟩ := parse_token_flat t (by simp [ht]) (by simp [ht])
           rw [parse_nodes_cons (hnode rest)]
           rw [ih rest (by simp at hlen; omega) d hscan hd]
           have hstack : scanStack (t :: rest) [] = scanStack rest [] := by
             rw [scanStack_cons, ht]
           rw [hstack])

/-- Every token on the scan stack is a `BeginLoop` of the stream (or was on
the starting stack). -/
theorem scanStack_mem : ∀ (ts s : List Token) (x : Token),
    x ∈ scanStack ts s → x ∈ s ∨ (x ∈ ts ∧ x.token_type = .beginLoop) := by
  intro ts
  induction ts with
  | nil => intro s x hx; exact Or.inl hx
  | cons t rest ih =>
    intro s x hx
    rw [scanStack_cons] at hx
    cases ht : t.token_type
    case beginLoop =>
      rw [ht] at hx
      simp only at hx
      rcases ih (t :: s) x hx with h | h
      · rcases List.mem_cons.1 h with rfl | h
        · exact Or.inr ⟨List.mem_cons_self _ _, ht⟩
        · exact Or.inl h
      · exact Or.inr ⟨List.mem_cons_of_mem _ h.1, h.2⟩
    case endLoop =>
      rw [ht] at hx
      simp only at hx
      rcases ih s.tail x hx with h | h
      · exact Or.inl (List.mem_of_mem_tail h)
      · exact Or.inr ⟨List.mem_cons_of_mem _ h.1, h.2⟩
    all_goals
      (rw [ht] at hx; simp only at hx;
       rcases ih s x hx with h | h;
       · exact Or.inl h
       · exact Or.inr ⟨List.mem_cons_of_mem _ h.1, h.2⟩)

/-- Claim C6: for every token stream with balanced brackets (the reference
scan from depth 0 returns to depth 0), `parse` succeeds, and the number of
`Loop` nodes in the resulting tree equals the number of bracket pairs in the
stream (the `BeginLoop` count, which the last conjunct shows equals the
`EndLoop` count). -/
theorem C6_balanced_parse (ts : List Token) (h : relScan ts 0 = some 0) :
    ∃ nodes, parse ts = .ok (.program nodes 0 0) ∧
      countLoopsList nodes = countTokens .beginLoop ts ∧
      countTokens .beginLoop ts = countTokens .endLoop ts := by
  have hbal := balanced_of_relScan ts.length ts le_rfl h
  obtain ⟨chunk, hcount, hii, _⟩ := parse_chunk hbal
  refine ⟨chunk, ?_, hcount, balanced_count hbal⟩
  have h2 := hii []
  rw [List.append_nil] at h2
  rw [parse, h2]
  rw [show parse_nodes [] = .ok [] from by rw [parse_nodes]]
  simp [Except.map]

/-- Claim C6 witness: the stream of `[+][-]` parses to two loops. -/
theorem C6_balanced_parse_witness :
    ∃ nodes,
      parse [⟨.beginLoop, 1, 1⟩, ⟨.increment, 1, 2⟩, ⟨.endLoop, 1, 3⟩,
          ⟨.beginLoop, 1, 4⟩, ⟨.decrement, 1, 5⟩, ⟨.endLoop, 1, 6⟩] =
        .ok (.program nodes 0 0) ∧
      countLoopsList nodes =
        countTokens .beginLoop
          [⟨.beginLoop, 1, 1⟩, ⟨.increment, 1, 2⟩, ⟨.endLoop, 1, 3⟩,
            ⟨.beginLoop, 1, 4⟩, ⟨.decrement, 1, 5⟩, ⟨.endLoop, 1, 6⟩] ∧
      countTokens .beginLoop
          [⟨.beginLoop, 1, 1⟩, ⟨.increment, 1, 2⟩, ⟨.endLoop, 1, 3⟩,
            ⟨.beginLoop, 1, 4⟩, ⟨.decrement, 1, 5⟩, ⟨.endLoop, 1, 6⟩] =
        countTokens .endLoop
          [⟨.beginLoop, 1, 1⟩, ⟨.increment, 1, 2⟩, ⟨.endLoop, 1, 3⟩,
            ⟨.beginLoop, 1, 4⟩, ⟨.decrement, 1, 5⟩, ⟨.endLoop, 1, 6⟩] :=
  C6_balanced_parse _ rfl

/-- Claim C7: parse errors carry exact positions.  (a) If the stream is a
balanced prefix followed by an `EndLoop` token (the first `]` arriving with
no loop open), parsing fails with `UnmatchedEndLoop` at that token's
line/char.  (b) If the scan ends with `d + 1` loops still open (and never
sees a bare `]`), parsing fails with `UnmatchedBeginLoop` carrying the
line/char of the innermost still-open `BeginLoop` token — the top of the
open-bracket stack — not a position at the end of input. -/
theorem C7_parse_error_positions :
    (∀ (pre : List Token) (bad : Token) (post : List Token),
      relScan pre 0 = some 0 → bad.token_type = .endLoop →
      parse (pre ++ bad :: post) =
        .error (.unmatchedEndLoop bad.line bad.char)) ∧
    (∀ (ts : List Token) (d : Nat), relScan ts 0 = some (d + 1) →
      ∃ b stack1, scanStack ts [] = b :: stack1 ∧
        b.token_type = .beginLoop ∧
        parse ts = .error (.unmatchedBeginLoop b.line b.char)) := by
  constructor
  · intro pre bad post hpre hbad
    have hbal := balanced_of_relScan pre.length pre le_rfl hpre
    obtain ⟨chunk, _, hii, _⟩ := parse_chunk hbal
    rw [parse, hii (bad :: post),
      parse_nodes_cons_error (parse_token_end bad hbad post)]
    rfl
  · intro ts d hscan
    have hlen := scanStack_length ts 0 (d + 1) hscan [] rfl
    match hs : scanStack ts [], hlen with
    | b :: stack1, _ =>
      have hb : b.token_type = .beginLoop := by
        rcases scanStack_mem ts [] b (hs ▸ List.mem_cons_self b stack1) with
          h | h
        · simp at h
        · exact h.2
      refine ⟨b, stack1, rfl, hb, ?_⟩
      rw [parse, parse_nodes_open_loop ts.length ts le_rfl (d + 1) hscan
        (by omega), hs]
      rfl

/-- Claim C7 witness: a bare `]` reports its own position; `+[` reports the
position of the `[`. -/
theorem C7_parse_error_positions_witness :
    parse [⟨.endLoop, 3, 7⟩] = .error (.unmatchedEndLoop 3 7) ∧
    ∃ b stack1,
      scanStack [⟨.increment, 2, 4⟩, ⟨.beginLoop, 2, 5⟩] [] = b :: stack1 ∧
      b.token_type = .beginLoop ∧
      parse [⟨.increment, 2, 4⟩, ⟨.beginLoop, 2, 5⟩] =
        .error (.unmatchedBeginLoop b.line b.char) :=
  ⟨by simpa using C7_parse_error_positions.1 [] ⟨.endLoop, 3, 7⟩ [] rfl rfl,
    C7_parse_error_positions.2 [⟨.increment, 2, 4⟩, ⟨.beginLoop, 2, 5⟩] 0 rfl⟩

/-! ## Idempotence of the optimizer pipeline (claim C5)

Each pass establishes a normal form that the later passes preserve and on
which the pass itself is the identity. -/

/-- The top-level `Program` has no leading `Loop` child (the normal form of
`remove_comment_loop`). -/
def headNotLoopList : List Node → Bool
  | [] => true
  | x :: _ => !isLoopNode x

def noLeadingLoops : Node → Bool
  | .program ch _ _ => headNotLoopList ch
  | .loop _ _ _ => true
  | .next _ _ _ => true
  | .previous _ _ _ => true
  | .increment _ _ _ => true
  | .decrement _ _ _ => true
  | .output _ _ => true
  | .input _ _ => true
  | .setCell _ _ _ => true

mutual

/-- Normal form of a run-length merging pass: no two adjacent nodes of the
merged kind in any sibling list, recursively. -/
def noAdjRun (k : RunKind) (x : Node) : Bool :=
  match x with
  | .program ch _ _ => noAdjRunList k ch
  | .loop ch _ _ => noAdjRunList k ch
  | .next _ _ _ => true
  | .previous _ _ _ => true
  | .increment _ _ _ => true
  | .decrement _ _ _ => true
  | .output _ _ => true
  | .input _ _ => true
  | .setCell _ _ _ => true
termination_by (sizeOf x, 0)

def noAdjRunList (k : RunKind) (xs : List Node) : Bool :=
  match xs with
  | [] => true
  | x :: rest =>
    noAdjRun k x &&
    (match rest with
     | [] => true
     | y :: _ => !((k.matchNode x).isSome && (k.matchNode y).isSome)) &&
    noAdjRunList k rest
termination_by (sizeOf xs, 1)

end

theorem matchNode_make_self (k : RunKind) (a l c : Nat) :
    k.matchNode (k.make a l c) = some (a, l, c) := by
  cases k <;> rfl

theorem matchNode_make_ne {j k : RunKind} (h : j ≠ k) (a l c : Nat) :
    k.matchNode (j.make a l c) = none := by
  cases j <;> cases k <;> first | exact absurd rfl h | rfl

theorem matchNode_roundtrip {k : RunKind} {x : Node} {a l c : Nat}
    (h : k.matchNode x = some (a, l, c)) : x = k.make a l c := by
  cases k <;> cases x <;> simp_all [RunKind.matchNode, RunKind.make]

theorem isLoopNode_make (k : RunKind) (a l c : Nat) :
    isLoopNode (k.make a l c) = false := by
  cases k <;> rfl

theorem noAdjRun_make (k j : RunKind) (a l c : Nat) :
    noAdjRun k (j.make a l c) = true := by
  cases j <;> simp [RunKind.make, noAdjRun]

theorem isLoopNode_collapse_run (k : RunKind) (x : Node) :
    isLoopNode (collapse_run k x) = isLoopNode x := by
  cases x <;> simp [collapse_run, isLoopNode]

theorem matchNode_collapse_run (k j : RunKind) (x : Node) :
    k.matchNode (collapse_run j x) = k.matchNode x := by
  cases x <;> cases k <;> simp [collapse_run, RunKind.matchNode]

theorem matchNode_collapse_set_zero_node (k : RunKind) (x : Node) :
    k.matchNode (collapse_set_zero_node x) = k.matchNode x := by
  cases x
  case loop ch l c =>
    rw [collapse_set_zero_node]
    by_cases h : ch.length = 1
    · simp only [h, if_true]
      split
      · cases k <;> rfl
      · cases k <;> rfl
    · simp only [h, if_false]
      rw [collapse_set_zero]
      cases k <;> rfl
  case program ch l c =>
    rw [collapse_set_zero_node, collapse_set_zero]
    cases k <;> rfl
  all_goals rw [collapse_set_zero_node, collapse_set_zero]

theorem isLoopNode_collapse_set_zero_node {x : Node}
    (h : isLoopNode x = false) :
    isLoopNode (collapse_set_zero_node x) = false := by
  cases x
  case loop ch l c => simp [isLoopNode] at h
  case program ch l c =>
    rw [collapse_set_zero_node, collapse_set_zero]
    rfl
  all_goals (rw [collapse_set_zero_node, collapse_set_zero]; exact h)

theorem noAdjRun_leaf (k : RunKind) (x : Node)
    (h1 : isLoopNode x = false)
    (h2 : ∀ ch l c, x ≠ .program ch l c) : noAdjRun k x = true := by
  cases x
  case loop ch l c => simp [isLoopNode] at h1
  case program ch l c => exact absurd rfl (h2 ch l c)
  all_goals rw [noAdjRun]

/-! ### Unfolding helpers for `collapse_node_list` -/

theorem collapse_node_list_nil (k : RunKind)
    (pending : Option (Nat × Nat × Nat)) :
    collapse_node_list k [] pending = flushRun k pending := by
  rw [collapse_node_list]

theorem collapse_node_list_cons_match_none {k : RunKind} {x : Node}
    {a l c : Nat} (h : k.matchNode x = some (a, l, c)) (rest : List Node) :
    collapse_node_list k (x :: rest) none =
      collapse_node_list k rest (some (a, l, c)) := by
  rw [collapse_node_list, h]

theorem collapse_node_list_cons_match_some {k : RunKind} {x : Node}
    {a l c : Nat} (h : k.matchNode x = some (a, l, c)) (rest : List Node)
    (a0 l0 c0 : Nat) :
    collapse_node_list k (x :: rest) (some (a0, l0, c0)) =
      collapse_node_list k rest (some (a0 + a, l0, c0)) := by
  rw [collapse_node_list, h]

theorem collapse_node_list_cons_nomatch {k : RunKind} {x : Node}
    (h : k.matchNode x = none) (rest : List Node)
    (pending : Option (Nat × Nat × Nat)) :
    collapse_node_list k (x :: rest) pending =
      flushRun k pending ++
        collapse_run k x :: collapse_node_list k rest none := by
  rw [collapse_node_list, h]

/-- Head of the list is not of the merged kind (or the list is empty). -/
def headNotK (k : RunKind) : List Node → Prop
  | [] => True
  | y :: _ => k.matchNode y = none

theorem headNotK_nil (k : RunKind) : headNotK k [] := trivial

theorem headNotK_cons (k : RunKind) (y : Node) (ys : List Node) :
    headNotK k (y :: ys) = (k.matchNode y = none) := rfl

theorem headNotLoopList_nil : headNotLoopList [] = true := rfl

theorem headNotLoopList_cons (x : Node) (xs : List Node) :
    headNotLoopList (x :: xs) = !isLoopNode x := rfl

theorem noAdjRunList_cons {k : RunKind} {x : Node} {rest : List Node} :
    noAdjRunList k (x :: rest) = true ↔
      noAdjRun k x = true ∧
      (∀ y ys, rest = y :: ys →
        ¬((k.matchNode x).isSome ∧ (k.matchNode y).isSome)) ∧
      noAdjRunList k rest = true := by
  rw [noAdjRunList.eq_def]
  cases rest with
  | nil => simp
  | cons y ys =>
    simp only [Bool.and_eq_true, Bool.not_eq_true']
    constructor
    · rintro ⟨⟨h1, h2⟩, h3⟩
      refine ⟨h1, ?_, h3⟩
      rintro y1 ys1 ⟨rfl, rfl⟩
      rintro ⟨hx, hy⟩
      rw [hx, hy] at h2
      simp at h2
    · rintro ⟨h1, h2, h3⟩
      refine ⟨⟨h1, ?_⟩, h3⟩
      have := h2 y ys rfl
      cases hx : (k.matchNode x).isSome <;>
        cases hy : (k.matchNode y).isSome <;> simp_all

/-! ### The run-length merging pass: fixpoint, establishment, preservation -/

theorem collapse_node_list_fix (k : RunKind) (xs : List Node)
    (hmem : ∀ x ∈ xs, noAdjRun k x = true → collapse_run k x = x)
    (hadj : noAdjRunList k xs = true) :
    collapse_node_list k xs none = xs ∧
    (∀ a l c, headNotK k xs →
      collapse_node_list k xs (some (a, l, c)) = k.make a l c :: xs) := by
  induction xs with
  | nil =>
    refine ⟨by rw [collapse_node_list_nil]; rfl, fun a l c _ => ?_⟩
    rw [collapse_node_list_nil]
    rfl
  | cons x rest ih =>
    obtain ⟨hx, hpair, hrest⟩ := noAdjRunList_cons.1 hadj
    have ihr := ih (fun z hz => hmem z (List.mem_cons_of_mem _ hz)) hrest
    cases hm : k.matchNode x with
    | some p =>
      obtain ⟨a1, l1, c1⟩ := p
      have hxval := matchNode_roundtrip hm
      have hheadrest : headNotK k rest := by
        cases rest with
        | nil => exact trivial
        | cons y ys =>
          have := hpair y ys rfl
          rw [headNotK]
          cases hy : k.matchNode y with
          | none => rfl
          | some q => exact absurd ⟨by rw [hm]; rfl, by rw [hy]; rfl⟩ this
      constructor
      · rw [collapse_node_list_cons_match_none hm, ihr.2 a1 l1 c1 hheadrest,
          hxval]
      · intro a l c hhead
        rw [headNotK, hm] at hhead
        exact absurd hhead (by simp)
    | none =>
      constructor
      · rw [collapse_node_list_cons_nomatch hm]
        rw [hmem x (List.mem_cons_self _ _) hx, ihr.1]
        rfl
      · intro a l c _
        rw [collapse_node_list_cons_nomatch hm]
        rw [hmem x (List.mem_cons_self _ _) hx, ihr.1]
        rfl

theorem collapse_run_fix (k : RunKind) :
    ∀ x, noAdjRun k x = true → collapse_run k x = x := by
  refine Node.inductionOn (fun x => noAdjRun k x = true → collapse_run k x = x)
    ?_ ?_ ?_ ?_ ?_ ?_ ?_ ?_ ?_
  · intro ch l c hch h
    rw [noAdjRun] at h
    rw [collapse_run, (collapse_node_list_fix k ch hch h).1]
  · intro ch l c hch h
    rw [noAdjRun] at h
    rw [collapse_run, (collapse_node_list_fix k ch hch h).1]
  all_goals (intros; simp [collapse_run])

theorem noAdjRunList_collapse (k : RunKind) (xs : List Node)
    (hmem : ∀ x ∈ xs, noAdjRun k (collapse_run k x) = true) :
    ∀ pending, noAdjRunList k (collapse_node_list k xs pending) = true := by
  induction xs with
  | nil =>
    intro pending
    rw [collapse_node_list_nil]
    cases pending with
    | none => rw [flushRun]; rw [noAdjRunList]
    | some p =>
      obtain ⟨a, l, c⟩ := p
      rw [flushRun]
      exact noAdjRunList_cons.2 ⟨noAdjRun_make k k a l c, by simp,
        by rw [noAdjRunList]⟩
  | cons x rest ih =>
    intro pending
    have ihr := ih (fun z hz => hmem z (List.mem_cons_of_mem _ hz))
    cases hm : k.matchNode x with
    | some p =>
      obtain ⟨a1, l1, c1⟩ := p
      cases pending with
      | none => rw [collapse_node_list_cons_match_none hm]; exact ihr _
      | some p0 =>
        obtain ⟨a0, l0, c0⟩ := p0
        rw [collapse_node_list_cons_match_some hm]
        exact ihr _
    | none =>
      have hcx : k.matchNode (collapse_run k x) = none := by
        rw [matchNode_collapse_run, hm]
      have htail : noAdjRunList k
          (collapse_run k x :: collapse_node_list k rest none) = true := by
        refine noAdjRunList_cons.2 ⟨hmem x (List.mem_cons_self _ _), ?_, ihr none⟩
        intro y ys _ hcontra
        rw [hcx] at hcontra
        simp at hcontra
      cases pending with
      | none =>
        rw [collapse_node_list_cons_nomatch hm]
        rw [flushRun]
        simpa using htail
      | some p0 =>
        obtain ⟨a0, l0, c0⟩ := p0
        rw [collapse_node_list_cons_nomatch hm]
        rw [flushRun]
        refine noAdjRunList_cons.2 ⟨noAdjRun_make k k a0 l0 c0, ?_, htail⟩
        intro y ys hys hcontra
        have : y = collapse_run k x := by
          have := congrArg (fun zs => zs.headD (Node.output 0 0)) hys
          simp at this
          exact this.symm
        rw [this, hcx] at hcontra
        simp at hcontra

theorem noAdjRun_collapse (k : RunKind) :
    ∀ x, noAdjRun k (collapse_run k x) = true := by
  refine Node.inductionOn (fun x => noAdjRun k (collapse_run k x) = true)
    ?_ ?_ ?_ ?_ ?_ ?_ ?_ ?_ ?_
  · intro ch l c hch
    rw [collapse_run]
    rw [noAdjRun]
    exact noAdjRunList_collapse k ch hch none
  · intro ch l c hch
    rw [collapse_run]
    rw [noAdjRun]
    exact noAdjRunList_collapse k ch hch none
  all_goals (intros; simp [collapse_run, noAdjRun])

/-! ### One merging pass preserves the normal form of another -/

theorem headNotK_collapse_some (j k : RunKind) (hjk : j ≠ k) :
    ∀ (rest : List Node) (a l c : Nat),
      headNotK k (collapse_node_list j rest (some (a, l, c))) := by
  intro rest
  induction rest with
  | nil =>
    intro a l c
    rw [collapse_node_list_nil, flushRun, headNotK_cons]
    exact matchNode_make_ne hjk a l c
  | cons y rest1 ih =>
    intro a l c
    cases hm : j.matchNode y with
    | some p =>
      obtain ⟨a1, l1, c1⟩ := p
      rw [collapse_node_list_cons_match_some hm]
      exact ih _ _ _
    | none =>
      rw [collapse_node_list_cons_nomatch hm, flushRun]
      rw [List.singleton_append, headNotK_cons]
      exact matchNode_make_ne hjk a l c

theorem headNotK_collapse_none {j k : RunKind} (hjk : j ≠ k)
    {rest : List Node} (h : headNotK k rest) :
    headNotK k (collapse_node_list j rest none) := by
  cases rest with
  | nil => rw [collapse_node_list_nil, flushRun]; exact trivial
  | cons y rest1 =>
    cases hm : j.matchNode y with
    | some p =>
      obtain ⟨a1, l1, c1⟩ := p
      rw [collapse_node_list_cons_match_none hm]
      exact headNotK_collapse_some j k hjk rest1 a1 l1 c1
    | none =>
      rw [collapse_node_list_cons_nomatch hm, flushRun, List.nil_append]
      rw [headNotK_cons] at h ⊢
      rw [matchNode_collapse_run]
      exact h

theorem noAdjRunList_pres (j k : RunKind) (hjk : j ≠ k) (xs : List Node)
    (hmem : ∀ x ∈ xs, noAdjRun k x = true →
      noAdjRun k (collapse_run j x) = true)
    (hadj : noAdjRunList k xs = true) :
    ∀ pending, noAdjRunList k (collapse_node_list j xs pending) = true := by
  induction xs with
  | nil =>
    intro pending
    rw [collapse_node_list_nil]
    cases pending with
    | none => rw [flushRun]; rw [noAdjRunList]
    | some p =>
      obtain ⟨a, l, c⟩ := p
      rw [flushRun]
      exact noAdjRunList_cons.2 ⟨noAdjRun_make k j a l c, by simp,
        by rw [noAdjRunList]⟩
  | cons x rest ih =>
    intro pending
    obtain ⟨hx, hpair, hrest⟩ := noAdjRunList_cons.1 hadj
    have ihr := ih (fun z hz => hmem z (List.mem_cons_of_mem _ hz)) hrest
    cases hm : j.matchNode x with
    | some p =>
      obtain ⟨a1, l1, c1⟩ := p
      cases pending with
      | none => rw [collapse_node_list_cons_match_none hm]; exact ihr _
      | some p0 =>
        obtain ⟨a0, l0, c0⟩ := p0
        rw [collapse_node_list_cons_match_some hm]
        exact ihr _
    | none =>
      have hheadout : ∀ y ys,
          collapse_node_list j rest none = y :: ys →
          (k.matchNode x).isSome = true → (k.matchNode y).isSome = false := by
        intro y ys hys hxk
        have hheadrest : headNotK k rest := by
          cases rest with
          | nil => exact trivial
          | cons z zs =>
            have := hpair z zs rfl
            rw [headNotK]
            cases hz : k.matchNode z with
            | none => rfl
            | some q => exact absurd ⟨hxk, by rw [hz]; rfl⟩ this
        have := headNotK_collapse_none hjk hheadrest
        rw [hys, headNotK] at this
        rw [this]
        rfl
      have htail : noAdjRunList k
          (collapse_run j x :: collapse_node_list j rest none) = true := by
        refine noAdjRunList_cons.2 ⟨hmem x (List.mem_cons_self _ _) hx,
          ?_, ihr none⟩
        intro y ys hys hcontra
        rw [matchNode_collapse_run] at hcontra
        have := hheadout y ys hys hcontra.1
        rw [this] at hcontra
        simp at hcontra
      cases pending with
      | none =>
        rw [collapse_node_list_cons_nomatch hm, flushRun]
        simpa using htail
      | some p0 =>
        obtain ⟨a0, l0, c0⟩ := p0
        rw [collapse_node_list_cons_nomatch hm, flushRun]
        refine noAdjRunList_cons.2 ⟨noAdjRun_make k j a0 l0 c0, ?_, htail⟩
        intro y ys hys hcontra
        rw [matchNode_make_ne hjk] at hcontra
        simp at hcontra

theorem noAdjRun_pres (j k : RunKind) (hjk : j ≠ k) :
    ∀ x, noAdjRun k x = true → noAdjRun k (collapse_run j x) = true := by
  refine Node.inductionOn
    (fun x => noAdjRun k x = true → noAdjRun k (collapse_run j x) = true)
    ?_ ?_ ?_ ?_ ?_ ?_ ?_ ?_ ?_
  · intro ch l c hch h
    rw [noAdjRun] at h
    rw [collapse_run, noAdjRun]
    exact noAdjRunList_pres j k hjk ch hch h none
  · intro ch l c hch h
    rw [noAdjRun] at h
    rw [collapse_run, noAdjRun]
    exact noAdjRunList_pres j k hjk ch hch h none
  all_goals (intros; simp [collapse_run, noAdjRun])

/-! ### The zeroing-loop pass preserves the merging normal forms -/

theorem collapse_nodes_nil : collapse_nodes [] = [] := by
  rw [collapse_nodes]

theorem collapse_nodes_cons (x : Node) (rest : List Node) :
    collapse_nodes (x :: rest) =
      collapse_set_zero_node x :: collapse_nodes rest := by
  rw [collapse_nodes]

theorem collapse_nodes_length (xs : List Node) :
    (collapse_nodes xs).length = xs.length := by
  induction xs with
  | nil => rw [collapse_nodes_nil]
  | cons x rest ih => rw [collapse_nodes_cons]; simpa using ih

theorem noAdjRunList_sz (k : RunKind) (xs : List Node)
    (hmem : ∀ x ∈ xs, noAdjRun k x = true →
      noAdjRun k (collapse_set_zero_node x) = true)
    (hadj : noAdjRunList k xs = true) :
    noAdjRunList k (collapse_nodes xs) = true := by
  induction xs with
  | nil => rw [collapse_nodes_nil]; exact hadj
  | cons x rest ih =>
    obtain ⟨hx, hpair, hrest⟩ := noAdjRunList_cons.1 hadj
    rw [collapse_nodes_cons]
    refine noAdjRunList_cons.2
      ⟨hmem x (List.mem_cons_self _ _) hx, ?_,
        ih (fun z hz => hmem z (List.mem_cons_of_mem _ hz)) hrest⟩
    intro y ys hys hcontra
    rw [matchNode_collapse_set_zero_node] at hcontra
    cases rest with
    | nil => rw [collapse_nodes_nil] at hys; exact absurd hys (by simp)
    | cons z zs =>
      rw [collapse_nodes_cons] at hys
      have hy : y = collapse_set_zero_node z := by
        have := congrArg (fun ws => ws.headD (Node.output 0 0)) hys
        simp at this
        exact this.symm
      rw [hy, matchNode_collapse_set_zero_node] at hcontra
      exact hpair z zs rfl hcontra

theorem noAdjRun_sz_node (k : RunKind) :
    ∀ x, noAdjRun k x = true →
      noAdjRun k (collapse_set_zero_node x) = true := by
  refine Node.inductionOn
    (fun x => noAdjRun k x = true →
      noAdjRun k (collapse_set_zero_node x) = true) ?_ ?_ ?_ ?_ ?_ ?_ ?_ ?_ ?_
  · intro ch l c hch h
    rw [noAdjRun] at h
    rw [collapse_set_zero_node, collapse_set_zero, noAdjRun]
    exact noAdjRunList_sz k ch hch h
  · intro ch l c hch h
    rw [noAdjRun] at h
    rw [collapse_set_zero_node]
    by_cases hlen : ch.length = 1
    · simp only [hlen, if_true]
      split
      · rw [noAdjRun]
      · rw [noAdjRun]; exact h
    · simp only [hlen, if_false]
      rw [collapse_set_zero, noAdjRun]
      exact noAdjRunList_sz k ch hch h
  all_goals (intros; simp [collapse_set_zero_node, collapse_set_zero, noAdjRun])

theorem noAdjRun_sz (k : RunKind) (x : Node) (h : noAdjRun k x = true) :
    noAdjRun k (collapse_set_zero x) = true := by
  cases x
  case program ch l c =>
    rw [noAdjRun] at h
    rw [collapse_set_zero, noAdjRun]
    exact noAdjRunList_sz k ch (fun z _ => noAdjRun_sz_node k z) h
  case loop ch l c =>
    rw [noAdjRun] at h
    rw [collapse_set_zero, noAdjRun]
    exact noAdjRunList_sz k ch (fun z _ => noAdjRun_sz_node k z) h
  all_goals (rw [collapse_set_zero]; rw [noAdjRun])

/-! ### Leading-loop normal form -/

theorem headNotLoopList_collapse_some (k : RunKind) :
    ∀ (rest : List Node) (a l c : Nat),
      headNotLoopList (collapse_node_list k rest (some (a, l, c))) = true := by
  intro rest
  induction rest with
  | nil =>
    intro a l c
    rw [collapse_node_list_nil, flushRun, headNotLoopList_cons]
    simp [isLoopNode_make]
  | cons y rest1 ih =>
    intro a l c
    cases hm : k.matchNode y with
    | some p =>
      obtain ⟨a1, l1, c1⟩ := p
      rw [collapse_node_list_cons_match_some hm]
      exact ih _ _ _
    | none =>
      rw [collapse_node_list_cons_nomatch hm, flushRun,
        List.singleton_append, headNotLoopList_cons]
      simp [isLoopNode_make]

theorem headNotLoopList_collapse_none (k : RunKind) {ch : List Node}
    (h : headNotLoopList ch = true) :
    headNotLoopList (collapse_node_list k ch none) = true := by
  cases ch with
  | nil => rw [collapse_node_list_nil, flushRun]; rw [headNotLoopList]
  | cons y rest =>
    cases hm : k.matchNode y with
    | some p =>
      obtain ⟨a1, l1, c1⟩ := p
      rw [collapse_node_list_cons_match_none hm]
      exact headNotLoopList_collapse_some k rest a1 l1 c1
    | none =>
      rw [collapse_node_list_cons_nomatch hm, flushRun, List.nil_append,
        headNotLoopList_cons]
      rw [headNotLoopList_cons] at h
      rw [isLoopNode_collapse_run]
      exact h

theorem noLeadingLoops_collapse_run (k : RunKind) (x : Node)
    (h : noLeadingLoops x = true) :
    noLeadingLoops (collapse_run k x) = true := by
  cases x
  case program ch l c =>
    rw [noLeadingLoops] at h
    rw [collapse_run, noLeadingLoops]
    exact headNotLoopList_collapse_none k h
  case loop ch l c => rw [collapse_run]; rw [noLeadingLoops]
  all_goals (simp [collapse_run, noLeadingLoops])

theorem noLeadingLoops_sz (x : Node) (h : noLeadingLoops x = true) :
    noLeadingLoops (collapse_set_zero x) = true := by
  cases x
  case program ch l c =>
    rw [noLeadingLoops] at h
    rw [collapse_set_zero, noLeadingLoops]
    cases ch with
    | nil => rw [collapse_nodes_nil]; exact h
    | cons y rest =>
      rw [collapse_nodes_cons, headNotLoopList_cons]
      rw [headNotLoopList_cons] at h
      simp only [Bool.not_eq_true'] at h ⊢
      exact isLoopNode_collapse_set_zero_node h
  case loop ch l c => rw [collapse_set_zero]; rw [noLeadingLoops]
  all_goals (rw [collapse_set_zero]; rw [noLeadingLoops])

theorem noLeadingLoops_rcl (x : Node) :
    noLeadingLoops (remove_comment_loop x) = true := by
  cases x
  case program ch l c =>
    rw [remove_comment_loop, noLeadingLoops]
    induction ch with
    | nil => rw [dropLeadingLoops]; rfl
    | cons y rest ih =>
      rw [dropLeadingLoops]
      cases hy : isLoopNode y with
      | true => simpa using ih
      | false => simp [hy, headNotLoopList_cons]
  all_goals (rw [remove_comment_loop]; rw [noLeadingLoops])

theorem remove_comment_loop_fix (x : Node) (h : noLeadingLoops x = true) :
    remove_comment_loop x = x := by
  cases x
  case program ch l c =>
    rw [noLeadingLoops] at h
    rw [remove_comment_loop]
    cases ch with
    | nil => rw [dropLeadingLoops]
    | cons y rest =>
      rw [headNotLoopList_cons] at h
      rw [dropLeadingLoops]
      simp only [Bool.not_eq_true'] at h
      simp [h]
  all_goals rw [remove_comment_loop]

/-! ### Idempotence of the zeroing-loop pass -/

theorem collapse_set_zero_node_idem :
    ∀ x, collapse_set_zero_node (collapse_set_zero_node x) =
      collapse_set_zero_node x := by
  have hlist : ∀ ch : List Node,
      (∀ x ∈ ch, collapse_set_zero_node (collapse_set_zero_node x) =
        collapse_set_zero_node x) →
      collapse_nodes (collapse_nodes ch) = collapse_nodes ch := by
    intro ch hch
    induction ch with
    | nil => rw [collapse_nodes_nil, collapse_nodes_nil]
    | cons y rest ih =>
      rw [collapse_nodes_cons, collapse_nodes_cons]
      rw [hch y (List.mem_cons_self _ _),
        ih (fun z hz => hch z (List.mem_cons_of_mem _ hz))]
  refine Node.inductionOn
    (fun x => collapse_set_zero_node (collapse_set_zero_node x) =
      collapse_set_zero_node x) ?_ ?_ ?_ ?_ ?_ ?_ ?_ ?_ ?_
  · intro ch l c hch
    rw [collapse_set_zero_node, collapse_set_zero]
    rw [collapse_set_zero_node, collapse_set_zero]
    rw [hlist ch hch]
  · intro ch l c hch
    rw [collapse_set_zero_node]
    by_cases hlen : ch.length = 1
    · simp only [hlen, if_true]
      cases hu : isUnitDecrement (ch.headD (.output 0 0)) with
      | true =>
        simp only [if_true]
        rw [collapse_set_zero_node, collapse_set_zero]
      | false =>
        simp only [Bool.false_eq_true, if_false]
        rw [collapse_set_zero_node]
        simp only [hlen, if_true, hu, Bool.false_eq_true, if_false]
    · simp only [hlen, if_false]
      rw [collapse_set_zero]
      rw [collapse_set_zero_node]
      have hlen2 : (collapse_nodes ch).length = 1 ↔ False := by
        rw [collapse_nodes_length]
        simp [hlen]
      simp only [collapse_nodes_length, hlen, if_false]
      rw [collapse_set_zero]
      rw [hlist ch hch]
  all_goals (intros; simp [collapse_set_zero_node, collapse_set_zero])

theorem collapse_set_zero_idem (x : Node) :
    collapse_set_zero (collapse_set_zero x) = collapse_set_zero x := by
  have hlist : ∀ ch : List Node,
      collapse_nodes (collapse_nodes ch) = collapse_nodes ch := by
    intro ch
    induction ch with
    | nil => rw [collapse_nodes_nil, collapse_nodes_nil]
    | cons y rest ih =>
      rw [collapse_nodes_cons, collapse_nodes_cons,
        collapse_set_zero_node_idem y, ih]
  cases x
  case program ch l c =>
    rw [collapse_set_zero, collapse_set_zero, hlist]
  case loop ch l c =>
    rw [collapse_set_zero, collapse_set_zero, hlist]
  all_goals (rw [collapse_set_zero]; rw [collapse_set_zero])

/-! ### Claim C5 -/

/-- Claim C5: the default optimizer pipeline is idempotent — applying it
twice yields a tree structurally equal to applying it once.  Each pass
establishes a normal form (no leading top-level loop; no adjacent
mergeable runs of each kind) that the later passes preserve and on which
the earlier passes act as the identity, and the zeroing-loop pass is
idempotent outright. -/
theorem C5_pipeline_idempotent (t : Node) :
    apply_default_optimizations (apply_default_optimizations t) =
      apply_default_optimizations t := by
  have hne1 : RunKind.decrement ≠ RunKind.increment := by simp
  have hne2 : RunKind.next ≠ RunKind.increment := by simp
  have hne3 : RunKind.previous ≠ RunKind.increment := by simp
  have hne4 : RunKind.next ≠ RunKind.decrement := by simp
  have hne5 : RunKind.previous ≠ RunKind.decrement := by simp
  have hne6 : RunKind.previous ≠ RunKind.next := by simp
  rw [apply_default_optimizations]
  rw [show apply_default_optimizations t =
    collapse_set_zero (collapse_previous (collapse_next (collapse_decrements
      (collapse_increments (remove_comment_loop t))))) from rfl]
  rw [show collapse_increments = collapse_run .increment from rfl,
    show collapse_decrements = collapse_run .decrement from rfl,
    show collapse_next = collapse_run .next from rfl,
    show collapse_previous = collapse_run .previous from rfl]
  set v1 := remove_comment_loop t with hv1
  set v2 := collapse_run .increment v1 with hv2
  set v3 := collapse_run .decrement v2 with hv3
  set v4 := collapse_run .next v3 with hv4
  set v5 := collapse_run .previous v4 with hv5
  set u := collapse_set_zero v5 with hu
  have hLead : noLeadingLoops u = true := by
    rw [hu, hv5, hv4, hv3, hv2]
    exact noLeadingLoops_sz _ (noLeadingLoops_collapse_run _ _
      (noLeadingLoops_collapse_run _ _ (noLeadingLoops_collapse_run _ _
        (noLeadingLoops_collapse_run _ _ (noLeadingLoops_rcl t)))))
  have hInc : noAdjRun .increment u = true := by
    rw [hu, hv5, hv4, hv3]
    exact noAdjRun_sz _ _ (noAdjRun_pres _ _ hne3 _ (noAdjRun_pres _ _ hne2 _
      (noAdjRun_pres _ _ hne1 _ (noAdjRun_collapse .increment v1))))
  have hDec : noAdjRun .decrement u = true := by
    rw [hu, hv5, hv4]
    exact noAdjRun_sz _ _ (noAdjRun_pres _ _ hne5 _ (noAdjRun_pres _ _ hne4 _
      (noAdjRun_collapse .decrement v2)))
  have hNext : noAdjRun .next u = true := by
    rw [hu, hv5]
    exact noAdjRun_sz _ _ (noAdjRun_pres _ _ hne6 _
      (noAdjRun_collapse .next v3))
  have hPrev : noAdjRun .previous u = true := by
    rw [hu]
    exact noAdjRun_sz _ _ (noAdjRun_collapse .previous v4)
  rw [remove_comment_loop_fix u hLead]
  rw [collapse_run_fix .increment u hInc]
  rw [collapse_run_fix .decrement u hDec]
  rw [collapse_run_fix .next u hNext]
  rw [collapse_run_fix .previous u hPrev]
  rw [hu, collapse_set_zero_idem]

/-! ## Semantic preservation of the optimizer (claim C3)

Two runs are observationally equal when they stop the same way (`ok` /
faulted / out of fuel), have produced the same output bytes, and — when they
completed normally — reached the same machine state.  Fault kinds need not
agree: collapsing a `Previous` run can turn a `PointerUnderflow` return into
the `usize`-underflow abort, but both stop execution with identical output. -/

/-- 0 = completed, 1 = out of fuel, 2 = stopped by a fault. -/
def stopClass : RunStop → Nat
  | .ok => 0
  | .outOfFuel => 1
  | .err _ => 2
  | .panicked => 2

def obsEq (r r1 : St × RunStop) : Prop :=
  stopClass r.2 = stopClass r1.2 ∧ r.1.output = r1.1.output ∧
  (r.2 = .ok → r.1 = r1.1)

theorem obsEq_refl (r : St × RunStop) : obsEq r r := ⟨rfl, rfl, fun _ => rfl⟩

theorem stopClass_ok {r : RunStop} (h : stopClass r = 0) : r = .ok := by
  cases r <;> first | rfl | (rw [stopClass] at h; omega)

theorem stopClass_spin {r : RunStop} (h : stopClass r = 1) : r = .outOfFuel := by
  cases r <;> first | rfl | (rw [stopClass] at h; omega)

theorem obsEq_symm {r r1 : St × RunStop} (h : obsEq r r1) : obsEq r1 r := by
  obtain ⟨hc, ho, hk⟩ := h
  refine ⟨hc.symm, ho.symm, fun h1 => ?_⟩
  have : r.2 = .ok := by rw [h1] at hc; exact stopClass_ok hc
  exact (hk this).symm

theorem obsEq_trans {r r1 r2 : St × RunStop} (h : obsEq r r1)
    (h1 : obsEq r1 r2) : obsEq r r2 := by
  obtain ⟨hc, ho, hk⟩ := h
  obtain ⟨hc1, ho1, hk1⟩ := h1
  refine ⟨hc.trans hc1, ho.trans ho1, fun h2 => ?_⟩
  have hr1 : r1.2 = .ok := by rw [h2] at hc; exact stopClass_ok hc.symm
  exact (hk h2).trans (hk1 hr1)

theorem obsEq_spin_iff {r r1 : St × RunStop} (h : obsEq r r1) :
    r.2 = .outOfFuel ↔ r1.2 = .outOfFuel := by
  constructor <;> intro hs
  · exact stopClass_spin (by rw [← h.1, hs]; rfl)
  · exact stopClass_spin (by rw [h.1, hs]; rfl)

/-! ### Unfold lemmas for the interpreter -/

theorem interpret_list_nil (fuel : Nat) (st : St) :
    interpret_list fuel [] st = (st, .ok) := by
  rw [interpret_list]

theorem interpret_list_cons_ok {fuel : Nat} {n : Node} {st st1 : St}
    (h : interpret_node fuel n st = (st1, .ok)) (rest : List Node) :
    interpret_list fuel (n :: rest) st = interpret_list fuel rest st1 := by
  rw [interpret_list, h]

theorem interpret_list_cons_stop {fuel : Nat} {n : Node} {st st1 : St}
    {r : RunStop} (h : interpret_node fuel n st = (st1, r)) (hr : r ≠ .ok)
    (rest : List Node) :
    interpret_list fuel (n :: rest) st = (st1, r) := by
  rw [interpret_list, h]
  cases r with
  | ok => exact absurd rfl hr
  | err e => rfl
  | panicked => rfl
  | outOfFuel => rfl

theorem interpret_loop_exit {fuel : Nat} {nodes : List Node} {st : St}
    (h : (expand_memory st.memory st.p).getD st.p 0 = 0) :
    interpret_loop fuel nodes st =
      ({ st with memory := expand_memory st.memory st.p }, .ok) := by
  rw [interpret_loop, if_pos h]

theorem interpret_loop_iter {fuel : Nat} {nodes : List Node} {st : St}
    (h : (expand_memory st.memory st.p).getD st.p 0 ≠ 0) :
    interpret_loop fuel nodes st =
      match interpret_list fuel nodes
          { st with memory := expand_memory st.memory st.p } with
      | (st1, .ok) =>
        if fuel = 0 then (st1, .outOfFuel)
        else interpret_loop (fuel - 1) nodes st1
      | (st1, .err e) => (st1, .err e)
      | (st1, .panicked) => (st1, .panicked)
      | (st1, .outOfFuel) => (st1, .outOfFuel) := by
  rw [interpret_loop, if_neg h]

theorem interpret_node_program (fuel : Nat) (ch : List Node) (l c : Nat)
    (st : St) :
    interpret_node fuel (.program ch l c) st = interpret_list fuel ch st := by
  rw [interpret_node]

theorem interpret_node_loop (fuel : Nat) (ch : List Node) (l c : Nat)
    (st : St) :
    interpret_node fuel (.loop ch l c) st = interpret_loop fuel ch st := by
  rw [interpret_node]

theorem interpret_node_previous (fuel a l c : Nat) (st : St) :
    interpret_node fuel (.previous a l c) st =
      if st.p = 0 ∧ a ≠ 0 then (st, .err .pointerUnderflow)
      else if a ≤ st.p then ({ st with p := st.p - a }, .ok)
      else (st, .panicked) := by
  rw [interpret_node, usize_sub]
  by_cases h : st.p = 0 ∧ a ≠ 0
  · simp [h]
  · simp only [h, if_false]
    by_cases h2 : a ≤ st.p
    · simp [h2]
    · simp [h2]

/-! ### Memory helper lemmas -/

theorem expand_memory_noop {m : List Nat} {p : Nat} (h : p < m.length) :
    expand_memory m p = m := by
  rw [expand_memory]
  simp [Nat.not_le.2 h]

theorem list_set_self : ∀ (m : List Nat) (p : Nat),
    m.set p (m.getD p 0) = m := by
  intro m
  induction m with
  | nil => intro p; rfl
  | cons x rest ih =>
    intro p
    cases p with
    | zero => rfl
    | succ p1 =>
      rw [List.set_cons_succ]
      rw [show (x :: rest).getD (p1 + 1) 0 = rest.getD p1 0 from rfl, ih]

theorem list_getD_set (m : List Nat) (p v : Nat) (h : p < m.length) :
    (m.set p v).getD p 0 = v := by
  rw [List.getD_eq_getElem?_getD, List.getElem?_set_self (by simpa using h)]
  rfl

theorem interpret_node_next (fuel a l c : Nat) (st : St) :
    interpret_node fuel (.next a l c) st = ({ st with p := st.p + a }, .ok) := by
  rw [interpret_node]

theorem interpret_node_increment (fuel a l c : Nat) (st : St) :
    interpret_node fuel (.increment a l c) st =
      ({ st with memory := ((expand_memory st.memory st.p).set st.p
          (((expand_memory st.memory st.p).getD st.p 0 + a % 256) % 256)) },
        .ok) := by
  rw [interpret_node]

theorem interpret_node_decrement (fuel a l c : Nat) (st : St) :
    interpret_node fuel (.decrement a l c) st =
      ({ st with memory := ((expand_memory st.memory st.p).set st.p
          (((expand_memory st.memory st.p).getD st.p 0 +
            (256 - a % 256)) % 256)) },
        .ok) := by
  rw [interpret_node]

/-- Sequencing respects observational equality. -/
theorem obsEq_seq {fuel : Nat} {cx x : Node} {crest rest : List Node}
    {st : St}
    (hhead : obsEq (interpret_node fuel cx st) (interpret_node fuel x st))
    (htail : ∀ st1, obsEq (interpret_list fuel crest st1)
      (interpret_list fuel rest st1)) :
    obsEq (interpret_list fuel (cx :: crest) st)
      (interpret_list fuel (x :: rest) st) := by
  cases hx : interpret_node fuel x st with
  | mk st1 r1 =>
    cases hcx : interpret_node fuel cx st with
    | mk st2 r2 =>
      have hc := hhead
      rw [hx, hcx] at hc
      cases r1 with
      | ok =>
        have hr2 : r2 = .ok := stopClass_ok hc.1
        have hst : st2 = st1 := by
          subst hr2
          exact hc.2.2 rfl
        subst hr2
        subst hst
        rw [interpret_list_cons_ok hcx, interpret_list_cons_ok hx]
        exact htail st2
      | err e =>
        have hr2 : r2 ≠ .ok := by
          intro h2
          subst h2
          exact absurd (stopClass_ok hc.1.symm) (by simp)
        rw [interpret_list_cons_stop hcx hr2, interpret_list_cons_stop hx (by simp)]
        exact hc
      | panicked =>
        have hr2 : r2 ≠ .ok := by
          intro h2
          subst h2
          exact absurd (stopClass_ok hc.1.symm) (by simp)
        rw [interpret_list_cons_stop hcx hr2, interpret_list_cons_stop hx (by simp)]
        exact hc
      | outOfFuel =>
        have hr2 : r2 ≠ .ok := by
          intro h2
          subst h2
          exact absurd (stopClass_ok hc.1.symm) (by simp)
        rw [interpret_list_cons_stop hcx hr2, interpret_list_cons_stop hx (by simp)]
        exact hc

/-- Merging two adjacent nodes of one run kind is observably equal to
executing them in sequence. -/
theorem kop_cons_merge (k : RunKind) (fuel : Nat) (rest : List Node)
    (st : St) (a b l c l1 c1 : Nat) :
    obsEq (interpret_list fuel (k.make (a + b) l c :: rest) st)
      (interpret_list fuel (k.make a l c :: k.make b l1 c1 :: rest) st) := by
  cases k
  case next =>
    simp only [RunKind.make]
    rw [interpret_list_cons_ok (interpret_node_next fuel (a + b) l c st),
      interpret_list_cons_ok (interpret_node_next fuel a l c st),
      interpret_list_cons_ok (interpret_node_next fuel b l1 c1 _)]
    have h1 : st.p + (a + b) = st.p + a + b := by omega
    dsimp only
    rw [h1]
    exact obsEq_refl _
  case increment =>
    simp only [RunKind.make]
    rw [interpret_list_cons_ok (interpret_node_increment fuel (a + b) l c st),
      interpret_list_cons_ok (interpret_node_increment fuel a l c st),
      interpret_list_cons_ok (interpret_node_increment fuel b l1 c1 _)]
    have hp : st.p < (expand_memory st.memory st.p).length :=
      expand_memory_p_lt _ _
    have hnoop : expand_memory
        ((expand_memory st.memory st.p).set st.p
          (((expand_memory st.memory st.p).getD st.p 0 + a % 256) % 256))
        st.p =
        (expand_memory st.memory st.p).set st.p
          (((expand_memory st.memory st.p).getD st.p 0 + a % 256) % 256) := by
      refine expand_memory_noop ?_
      simpa using hp
    dsimp only
    rw [hnoop, list_getD_set _ _ _ hp, List.set_set]
    have harith : (((expand_memory st.memory st.p).getD st.p 0 + a % 256) %
        256 + b % 256) % 256 =
        ((expand_memory st.memory st.p).getD st.p 0 + (a + b) % 256) % 256 := by
      omega
    rw [harith]
    exact obsEq_refl _
  case decrement =>
    simp only [RunKind.make]
    rw [interpret_list_cons_ok (interpret_node_decrement fuel (a + b) l c st),
      interpret_list_cons_ok (interpret_node_decrement fuel a l c st),
      interpret_list_cons_ok (interpret_node_decrement fuel b l1 c1 _)]
    have hp : st.p < (expand_memory st.memory st.p).length :=
      expand_memory_p_lt _ _
    have hnoop : expand_memory
        ((expand_memory st.memory st.p).set st.p
          (((expand_memory st.memory st.p).getD st.p 0 +
            (256 - a % 256)) % 256))
        st.p =
        (expand_memory st.memory st.p).set st.p
          (((expand_memory st.memory st.p).getD st.p 0 +
            (256 - a % 256)) % 256) := by
      refine expand_memory_noop ?_
      simpa using hp
    dsimp only
    rw [hnoop, list_getD_set _ _ _ hp, List.set_set]
    have harith : (((expand_memory st.memory st.p).getD st.p 0 +
        (256 - a % 256)) % 256 + (256 - b % 256)) % 256 =
        ((expand_memory st.memory st.p).getD st.p 0 +
          (256 - (a + b) % 256)) % 256 := by
      omega
    rw [harith]
    exact obsEq_refl _
  case previous =>
    simp only [RunKind.make]
    by_cases hab : a + b ≤ st.p
    · have e1 : interpret_node fuel (.previous (a + b) l c) st =
          ({ st with p := st.p - (a + b) }, .ok) := by
        rw [interpret_node_previous]
        rw [if_neg (by omega), if_pos hab]
      have e2 : interpret_node fuel (.previous a l c) st =
          ({ st with p := st.p - a }, .ok) := by
        rw [interpret_node_previous]
        rw [if_neg (by omega), if_pos (by omega)]
      have e3 : interpret_node fuel (.previous b l1 c1)
          { st with p := st.p - a } =
          ({ st with p := st.p - a - b }, .ok) := by
        rw [interpret_node_previous]
        rw [if_neg (by simp; omega), if_pos (by simp; omega)]
      rw [interpret_list_cons_ok e1, interpret_list_cons_ok e2,
        interpret_list_cons_ok e3]
      rw [show st.p - (a + b) = st.p - a - b from by omega]
      exact obsEq_refl _
    · have e1 : ∃ r1, interpret_node fuel (.previous (a + b) l c) st =
          (st, r1) ∧ stopClass r1 = 2 := by
        rw [interpret_node_previous]
        by_cases h0 : st.p = 0
        · exact ⟨.err .pointerUnderflow, by rw [if_pos ⟨h0, by omega⟩], rfl⟩
        · exact ⟨.panicked, by rw [if_neg (by omega), if_neg (by omega)], rfl⟩
      obtain ⟨r1, e1, hr1⟩ := e1
      rw [interpret_list_cons_stop e1
        (by intro h; rw [h] at hr1; simp [stopClass] at hr1) rest]
      by_cases ha : a ≤ st.p
      · have e2 : interpret_node fuel (.previous a l c) st =
            ({ st with p := st.p - a }, .ok) := by
          rw [interpret_node_previous]
          rw [if_neg (by omega), if_pos ha]
        have e3 : ∃ r2, interpret_node fuel (.previous b l1 c1)
            { st with p := st.p - a } = ({ st with p := st.p - a }, r2) ∧
            stopClass r2 = 2 := by
          rw [interpret_node_previous]
          by_cases h0 : st.p - a = 0
          · exact ⟨.err .pointerUnderflow,
              by rw [if_pos (by constructor <;> simp <;> omega)], rfl⟩
          · exact ⟨.panicked,
              by rw [if_neg (by simp; omega), if_neg (by simp; omega)], rfl⟩
        obtain ⟨r2, e3, hr2⟩ := e3
        rw [interpret_list_cons_ok e2, interpret_list_cons_stop e3
          (by intro h; rw [h] at hr2; simp [stopClass] at hr2) rest]
        exact ⟨by rw [hr1, hr2], rfl,
          by intro h; cases r1 <;> simp_all [stopClass]⟩
      · have e2 : ∃ r2, interpret_node fuel (.previous a l c) st =
            (st, r2) ∧ stopClass r2 = 2 := by
          rw [interpret_node_previous]
          by_cases h0 : st.p = 0
          · exact ⟨.err .pointerUnderflow, by rw [if_pos ⟨h0, by omega⟩], rfl⟩
          · exact ⟨.panicked, by rw [if_neg (by omega), if_neg (by omega)], rfl⟩
        obtain ⟨r2, e2, hr2⟩ := e2
        rw [interpret_list_cons_stop e2
          (by intro h; rw [h] at hr2; simp [stopClass] at hr2) (_ :: rest)]
        exact ⟨by rw [hr1, hr2], rfl,
          by intro h; cases r1 <;> simp_all [stopClass]⟩

theorem collapse_list_obs (k : RunKind) (xs : List Node)
    (hmem : ∀ x ∈ xs, ∀ fuel st,
      obsEq (interpret_node fuel (collapse_run k x) st)
        (interpret_node fuel x st)) :
    ∀ fuel st,
      obsEq (interpret_list fuel (collapse_node_list k xs none) st)
        (interpret_list fuel xs st) ∧
      (∀ a l c, obsEq
        (interpret_list fuel (collapse_node_list k xs (some (a, l, c))) st)
        (interpret_list fuel (k.make a l c :: xs) st)) := by
  induction xs with
  | nil =>
    intro fuel st
    constructor
    · rw [collapse_node_list_nil, flushRun]
      exact obsEq_refl _
    · intro a l c
      rw [collapse_node_list_nil, flushRun]
      exact obsEq_refl _
  | cons x rest ih =>
    intro fuel st
    have ihr := ih (fun z hz => hmem z (List.mem_cons_of_mem _ hz))
    cases hm : k.matchNode x with
    | some p =>
      obtain ⟨a1, l1, c1⟩ := p
      have hxval := matchNode_roundtrip hm
      constructor
      · rw [collapse_node_list_cons_match_none hm]
        have h1 := (ihr fuel st).2 a1 l1 c1
        rw [← hxval] at h1
        exact h1
      · intro a l c
        rw [collapse_node_list_cons_match_some hm]
        refine obsEq_trans ((ihr fuel st).2 (a + a1) l c) ?_
        have h2 := kop_cons_merge k fuel rest st a a1 l c l1 c1
        rw [← hxval] at h2
        exact h2
    | none =>
      have hnoneAll : ∀ st1,
          obsEq (interpret_list fuel
            (collapse_run k x :: collapse_node_list k rest none) st1)
          (interpret_list fuel (x :: rest) st1) := by
        intro st1
        exact obsEq_seq (hmem x (List.mem_cons_self _ _) fuel st1)
          (fun st2 => (ihr fuel st2).1)
      constructor
      · rw [collapse_node_list_cons_nomatch hm, flushRun, List.nil_append]
        exact hnoneAll st
      · intro a l c
        rw [collapse_node_list_cons_nomatch hm, flushRun,
          List.singleton_append]
        exact obsEq_seq (obsEq_refl _) (fun st1 => hnoneAll st1)

theorem collapse_loop_obs (k : RunKind) (ch : List Node)
    (hbody : ∀ fuel st, obsEq
      (interpret_list fuel (collapse_node_list k ch none) st)
      (interpret_list fuel ch st)) :
    ∀ fuel st, obsEq
      (interpret_loop fuel (collapse_node_list k ch none) st)
      (interpret_loop fuel ch st) := by
  intro fuel
  induction fuel with
  | zero =>
    intro st
    by_cases hz : (expand_memory st.memory st.p).getD st.p 0 = 0
    · rw [interpret_loop_exit hz, interpret_loop_exit hz]
      exact obsEq_refl _
    · rw [interpret_loop_iter hz, interpret_loop_iter hz]
      cases hb : interpret_list 0 ch
          { st with memory := expand_memory st.memory st.p } with
      | mk st1 r1 =>
        cases hcb : interpret_list 0 (collapse_node_list k ch none)
            { st with memory := expand_memory st.memory st.p } with
        | mk st2 r2 =>
          have hc := hbody 0 { st with memory := expand_memory st.memory st.p }
          rw [hb, hcb] at hc
          cases r1 with
          | ok =>
            have hr2 : r2 = .ok := stopClass_ok hc.1
            have hst : st2 = st1 := by subst hr2; exact hc.2.2 rfl
            subst hr2
            subst hst
            exact obsEq_refl _
          | err e =>
            cases r2 with
            | ok => exact absurd (stopClass_ok hc.1.symm) (by simp)
            | outOfFuel => exact absurd hc.1 (by simp [stopClass])
            | err e2 => exact hc
            | panicked => exact hc
          | panicked =>
            cases r2 with
            | ok => exact absurd (stopClass_ok hc.1.symm) (by simp)
            | outOfFuel => exact absurd hc.1 (by simp [stopClass])
            | err e2 => exact hc
            | panicked => exact hc
          | outOfFuel =>
            cases r2 with
            | ok => exact absurd (stopClass_ok hc.1.symm) (by simp)
            | outOfFuel => exact hc
            | err e2 => exact absurd hc.1 (by simp [stopClass])
            | panicked => exact absurd hc.1 (by simp [stopClass])
  | succ f ihf =>
    intro st
    by_cases hz : (expand_memory st.memory st.p).getD st.p 0 = 0
    · rw [interpret_loop_exit hz, interpret_loop_exit hz]
      exact obsEq_refl _
    · rw [interpret_loop_iter hz, interpret_loop_iter hz]
      cases hb : interpret_list (f + 1) ch
          { st with memory := expand_memory st.memory st.p } with
      | mk st1 r1 =>
        cases hcb : interpret_list (f + 1) (collapse_node_list k ch none)
            { st with memory := expand_memory st.memory st.p } with
        | mk st2 r2 =>
          have hc := hbody (f + 1)
            { st with memory := expand_memory st.memory st.p }
          rw [hb, hcb] at hc
          cases r1 with
          | ok =>
            have hr2 : r2 = .ok := stopClass_ok hc.1
            have hst : st2 = st1 := by subst hr2; exact hc.2.2 rfl
            subst hr2
            subst hst
            simp only [Nat.succ_ne_zero, if_false]
            exact ihf _
          | err e =>
            cases r2 with
            | ok => exact absurd (stopClass_ok hc.1.symm) (by simp)
            | outOfFuel => exact absurd hc.1 (by simp [stopClass])
            | err e2 => exact hc
            | panicked => exact hc
          | panicked =>
            cases r2 with
            | ok => exact absurd (stopClass_ok hc.1.symm) (by simp)
            | outOfFuel => exact absurd hc.1 (by simp [stopClass])
            | err e2 => exact hc
            | panicked => exact hc
          | outOfFuel =>
            cases r2 with
            | ok => exact absurd (stopClass_ok hc.1.symm) (by simp)
            | outOfFuel => exact hc
            | err e2 => exact absurd hc.1 (by simp [stopClass])
            | panicked => exact absurd hc.1 (by simp [stopClass])

theorem collapse_run_obs (k : RunKind) :
    ∀ x fuel st, obsEq (interpret_node fuel (collapse_run k x) st)
      (interpret_node fuel x st) := by
  refine Node.inductionOn
    (fun x => ∀ fuel st, obsEq (interpret_node fuel (collapse_run k x) st)
      (interpret_node fuel x st)) ?_ ?_ ?_ ?_ ?_ ?_ ?_ ?_ ?_
  · intro ch l c hch fuel st
    rw [collapse_run, interpret_node_program, interpret_node_program]
    exact (collapse_list_obs k ch hch fuel st).1
  · intro ch l c hch fuel st
    rw [collapse_run, interpret_node_loop, interpret_node_loop]
    exact collapse_loop_obs k ch
      (fun f s => (collapse_list_obs k ch hch f s).1) fuel st
  all_goals (intros; intro fuel st; rw [collapse_run]; exact obsEq_refl _)

/-! ### Fuel monotonicity: a finished run is unchanged by extra fuel -/

theorem interpret_list_mono_of (fuel fuel1 : Nat) (xs : List Node)
    (hmem : ∀ x ∈ xs, ∀ st s r, interpret_node fuel x st = (s, r) →
      r ≠ .outOfFuel → interpret_node fuel1 x st = (s, r)) :
    ∀ st s r, interpret_list fuel xs st = (s, r) → r ≠ .outOfFuel →
      interpret_list fuel1 xs st = (s, r) := by
  induction xs with
  | nil =>
    intro st s r h hr
    rw [interpret_list_nil] at h ⊢
    exact h
  | cons x rest ih =>
    intro st s r h hr
    cases hx : interpret_node fuel x st with
    | mk st1 r1 =>
      cases r1 with
      | ok =>
        rw [interpret_list_cons_ok hx] at h
        rw [interpret_list_cons_ok
          (hmem x (List.mem_cons_self _ _) st st1 .ok hx (by simp))]
        exact ih (fun z hz => hmem z (List.mem_cons_of_mem _ hz)) st1 s r h hr
      | err e =>
        rw [interpret_list_cons_stop hx (by simp)] at h
        cases h
        rw [interpret_list_cons_stop
          (hmem x (List.mem_cons_self _ _) st s (.err e) hx (by simp))
          (by simp)]
      | panicked =>
        rw [interpret_list_cons_stop hx (by simp)] at h
        cases h
        rw [interpret_list_cons_stop
          (hmem x (List.mem_cons_self _ _) st s .panicked hx (by simp))
          (by simp)]
      | outOfFuel =>
        rw [interpret_list_cons_stop hx (by simp)] at h
        cases h
        exact absurd rfl hr

theorem interpret_loop_mono_of (ch : List Node)
    (hbody : ∀ fuel fuel1 : Nat, fuel ≤ fuel1 → ∀ st s r,
      interpret_list fuel ch st = (s, r) → r ≠ .outOfFuel →
      interpret_list fuel1 ch st = (s, r)) :
    ∀ fuel fuel1, fuel ≤ fuel1 → ∀ st s r,
      interpret_loop fuel ch st = (s, r) → r ≠ .outOfFuel →
      interpret_loop fuel1 ch st = (s, r) := by
  intro fuel
  induction fuel with
  | zero =>
    intro fuel1 hf st s r h hr
    by_cases hz : (expand_memory st.memory st.p).getD st.p 0 = 0
    · rw [interpret_loop_exit hz] at h ⊢
      exact h
    · rw [interpret_loop_iter hz] at h
      rw [interpret_loop_iter hz]
      cases hb : interpret_list 0 ch
          { st with memory := expand_memory st.memory st.p } with
      | mk st1 r1 =>
        rw [hb] at h
        cases r1 with
        | ok =>
          simp only [if_pos rfl] at h
          cases h
          exact absurd rfl hr
        | err e =>
          cases h
          rw [hbody 0 fuel1 (Nat.zero_le _) _ s (.err e) hb (by simp)]
        | panicked =>
          cases h
          rw [hbody 0 fuel1 (Nat.zero_le _) _ s .panicked hb (by simp)]
        | outOfFuel =>
          cases h
          exact absurd rfl hr
  | succ f ihf =>
    intro fuel1 hf st s r h hr
    cases fuel1 with
    | zero => omega
    | succ f1 =>
      by_cases hz : (expand_memory st.memory st.p).getD st.p 0 = 0
      · rw [interpret_loop_exit hz] at h ⊢
        exact h
      · rw [interpret_loop_iter hz] at h
        rw [interpret_loop_iter hz]
        cases hb : interpret_list (f + 1) ch
            { st with memory := expand_memory st.memory st.p } with
        | mk st1 r1 =>
          rw [hb] at h
          cases r1 with
          | ok =>
            simp only [Nat.succ_ne_zero, if_false] at h
            rw [hbody (f + 1) (f1 + 1) (by omega) _ st1 .ok hb (by simp)]
            simp only [Nat.succ_ne_zero, if_false]
            exact ihf f1 (by omega) st1 s r h hr
          | err e =>
            cases h
            rw [hbody (f + 1) (f1 + 1) (by omega) _ s (.err e) hb (by simp)]
          | panicked =>
            cases h
            rw [hbody (f + 1) (f1 + 1) (by omega) _ s .panicked hb (by simp)]
          | outOfFuel =>
            cases h
            exact absurd rfl hr

theorem interpret_node_mono :
    ∀ (x : Node) (fuel fuel1 : Nat), fuel ≤ fuel1 → ∀ st s r,
      interpret_node fuel x st = (s, r) → r ≠ .outOfFuel →
      interpret_node fuel1 x st = (s, r) := by
  refine Node.inductionOn
    (fun x => ∀ (fuel fuel1 : Nat), fuel ≤ fuel1 → ∀ st s r,
      interpret_node fuel x st = (s, r) → r ≠ .outOfFuel →
      interpret_node fuel1 x st = (s, r)) ?_ ?_ ?_ ?_ ?_ ?_ ?_ ?_ ?_
  · intro ch l c hch fuel fuel1 hf st s r h hr
    rw [interpret_node_program] at h ⊢
    exact interpret_list_mono_of fuel fuel1 ch
      (fun z hz => hch z hz fuel fuel1 hf) st s r h hr
  · intro ch l c hch fuel fuel1 hf st s r h hr
    rw [interpret_node_loop] at h ⊢
    refine interpret_loop_mono_of ch ?_ fuel fuel1 hf st s r h hr
    intro f2 f3 hle st2 s2 r2 h2 hr2
    exact interpret_list_mono_of f2 f3 ch
      (fun z hz => hch z hz f2 f3 hle) st2 s2 r2 h2 hr2
  all_goals (intros; intro fuel fuel1 hf st s r h hr; rw [interpret_node] at h; rw [interpret_node]; exact h)

theorem interpret_list_mono {fuel fuel1 : Nat} (hf : fuel ≤ fuel1)
    (xs : List Node) {st s : St} {r : RunStop}
    (h : interpret_list fuel xs st = (s, r)) (hr : r ≠ .outOfFuel) :
    interpret_list fuel1 xs st = (s, r) :=
  interpret_list_mono_of fuel fuel1 xs
    (fun z _ => interpret_node_mono z fuel fuel1 hf) st s r h hr

theorem interpret_loop_mono {fuel fuel1 : Nat} (hf : fuel ≤ fuel1)
    (xs : List Node) {st s : St} {r : RunStop}
    (h : interpret_loop fuel xs st = (s, r)) (hr : r ≠ .outOfFuel) :
    interpret_loop fuel1 xs st = (s, r) :=
  interpret_loop_mono_of xs
    (fun f f1 hff st2 s2 r2 h2 hr2 =>
      interpret_list_mono_of f f1 xs
        (fun z _ => interpret_node_mono z f f1 hff) st2 s2 r2 h2 hr2)
    fuel fuel1 hf st s r h hr

/-! ### The zeroing loop `[-]` always terminates and clears the cell -/

theorem set_zero_of_getD_zero (m : List Nat) (p : Nat) (h : m.getD p 0 = 0) :
    m.set p 0 = m := by
  conv_lhs => rw [← h]
  exact list_set_self m p

/-- One pass of the body of `[-]`: a single `Decrement(1)` wraps the cell
down by one. -/
theorem zl_body (fuel a b : Nat) (st : St) (hm : st.p < st.memory.length) :
    interpret_list fuel [.decrement 1 a b] st =
      ({ st with memory := (st.memory.set st.p
          ((st.memory.getD st.p 0 + 255) % 256)) }, .ok) := by
  have h1 : interpret_node fuel (.decrement 1 a b) st =
      ({ st with memory := (st.memory.set st.p
          ((st.memory.getD st.p 0 + 255) % 256)) }, .ok) := by
    rw [interpret_node_decrement, expand_memory_noop hm]
  rw [interpret_list_cons_ok h1 [], interpret_list_nil]

/-- Any run of the loop `[-]` either clears the current cell and succeeds,
or runs out of fuel. -/
theorem zl_run (a b : Nat) : ∀ (fuel : Nat) (st : St),
    interpret_loop fuel [.decrement 1 a b] st =
      ({ st with memory := (expand_memory st.memory st.p).set st.p 0 }, .ok) ∨
    (interpret_loop fuel [.decrement 1 a b] st).2 = .outOfFuel := by
  intro fuel
  induction fuel with
  | zero =>
    intro st
    by_cases hz : (expand_memory st.memory st.p).getD st.p 0 = 0
    · left
      rw [interpret_loop_exit hz, set_zero_of_getD_zero _ _ hz]
    · rw [interpret_loop_iter hz,
        zl_body 0 a b { st with memory := expand_memory st.memory st.p }
          (expand_memory_p_lt st.memory st.p)]
      dsimp only
      rw [if_pos rfl]
      right
      rfl
  | succ f ihf =>
    intro st
    by_cases hz : (expand_memory st.memory st.p).getD st.p 0 = 0
    · left
      rw [interpret_loop_exit hz, set_zero_of_getD_zero _ _ hz]
    · rw [interpret_loop_iter hz,
        zl_body (f + 1) a b { st with memory := expand_memory st.memory st.p }
          (expand_memory_p_lt st.memory st.p)]
      dsimp only
      rw [if_neg (Nat.succ_ne_zero f)]
      rcases ihf { st with memory := ((expand_memory st.memory st.p).set st.p
          (((expand_memory st.memory st.p).getD st.p 0 + 255) % 256)) }
        with h1 | h1
      · left
        refine h1.trans ?_
        have hlt1 : st.p < ((expand_memory st.memory st.p).set st.p
            (((expand_memory st.memory st.p).getD st.p 0 + 255) %
              256)).length := by
          simpa using expand_memory_p_lt st.memory st.p
        dsimp only
        rw [expand_memory_noop hlt1, List.set_set]
      · right
        exact h1

/-- The loop `[-]` terminates on enough fuel: `cell` many iterations. -/
theorem zl_term_aux (a b : Nat) : ∀ (v : Nat) (st : St),
    (expand_memory st.memory st.p).getD st.p 0 = v →
    ∃ fuel, interpret_loop fuel [.decrement 1 a b] st =
      ({ st with memory := (expand_memory st.memory st.p).set st.p 0 },
        .ok) := by
  intro v
  induction v using Nat.strong_induction_on with
  | _ v ih =>
    intro st hv
    rcases Nat.eq_zero_or_pos v with hv0 | hv1
    · subst hv0
      refine ⟨0, ?_⟩
      rw [interpret_loop_exit hv, set_zero_of_getD_zero _ _ hv]
    · have hz : (expand_memory st.memory st.p).getD st.p 0 ≠ 0 := by omega
      have hlt1 : st.p < ((expand_memory st.memory st.p).set st.p
          (((expand_memory st.memory st.p).getD st.p 0 + 255) %
            256)).length := by
        simpa using expand_memory_p_lt st.memory st.p
      have hcell : (expand_memory ((expand_memory st.memory st.p).set st.p
            (((expand_memory st.memory st.p).getD st.p 0 + 255) % 256))
            st.p).getD st.p 0 = (v + 255) % 256 := by
        rw [expand_memory_noop hlt1, list_getD_set _ _ _
          (by simpa using expand_memory_p_lt st.memory st.p), hv]
      obtain ⟨f1, hf1⟩ := ih ((v + 255) % 256) (by omega)
        { st with memory := ((expand_memory st.memory st.p).set st.p
            (((expand_memory st.memory st.p).getD st.p 0 + 255) % 256)) }
        hcell
      refine ⟨f1 + 1, ?_⟩
      rw [interpret_loop_iter hz,
        zl_body (f1 + 1) a b { st with memory := expand_memory st.memory st.p }
          (expand_memory_p_lt st.memory st.p)]
      dsimp only
      rw [if_neg (Nat.succ_ne_zero f1)]
      refine hf1.trans ?_
      dsimp only
      rw [expand_memory_noop hlt1, List.set_set]

theorem zl_term (a b : Nat) (st : St) :
    ∃ fuel, interpret_loop fuel [.decrement 1 a b] st =
      ({ st with memory := (expand_memory st.memory st.p).set st.p 0 },
        .ok) :=
  zl_term_aux a b _ st rfl

/-! ### Exact simulation up to fuel -/

/-- Every finished run of `t` is reproduced verbatim (same final state and
same stop) by `t1` at some fuel. -/
def ExactSim (t t1 : Node) : Prop :=
  ∀ fuel st s r, interpret_node fuel t st = (s, r) → r ≠ .outOfFuel →
    ∃ fuel1, interpret_node fuel1 t1 st = (s, r)

theorem exactSim_refl (t : Node) : ExactSim t t :=
  fun fuel _ _ _ h _ => ⟨fuel, h⟩

theorem exactSim_list {xs ys : List Node}
    (hf : List.Forall₂ ExactSim xs ys) :
    ∀ fuel st s r, interpret_list fuel xs st = (s, r) → r ≠ .outOfFuel →
      ∃ fuel1, interpret_list fuel1 ys st = (s, r) := by
  induction hf with
  | nil =>
    intro fuel st s r h hr
    rw [interpret_list_nil] at h
    exact ⟨0, by rw [interpret_list_nil]; exact h⟩
  | @cons x y xs1 ys1 hxy hrest ih =>
    intro fuel st s r h hr
    cases hx : interpret_node fuel x st with
    | mk st1 r1 =>
      cases r1 with
      | ok =>
        rw [interpret_list_cons_ok hx xs1] at h
        obtain ⟨g1, hg1⟩ := hxy fuel st st1 .ok hx (by simp)
        obtain ⟨g2, hg2⟩ := ih fuel st1 s r h hr
        refine ⟨max g1 g2, ?_⟩
        rw [interpret_list_cons_ok (interpret_node_mono y g1 (max g1 g2)
          (Nat.le_max_left _ _) st st1 .ok hg1 (by simp)) ys1]
        exact interpret_list_mono (Nat.le_max_right g1 g2) ys1 hg2 hr
      | err e =>
        rw [interpret_list_cons_stop hx (by simp) xs1] at h
        cases h
        obtain ⟨g1, hg1⟩ := hxy fuel st s (.err e) hx (by simp)
        exact ⟨g1, by rw [interpret_list_cons_stop hg1 (by simp) ys1]⟩
      | panicked =>
        rw [interpret_list_cons_stop hx (by simp) xs1] at h
        cases h
        obtain ⟨g1, hg1⟩ := hxy fuel st s .panicked hx (by simp)
        exact ⟨g1, by rw [interpret_list_cons_stop hg1 (by simp) ys1]⟩
      | outOfFuel =>
        rw [interpret_list_cons_stop hx (by simp) xs1] at h
        cases h
        exact absurd rfl hr

theorem exactSim_loop {xs ys : List Node}
    (hlist : ∀ fuel st s r, interpret_list fuel xs st = (s, r) →
      r ≠ .outOfFuel → ∃ fuel1, interpret_list fuel1 ys st = (s, r)) :
    ∀ fuel st s r, interpret_loop fuel xs st = (s, r) → r ≠ .outOfFuel →
      ∃ fuel1, interpret_loop fuel1 ys st = (s, r) := by
  intro fuel
  induction fuel with
  | zero =>
    intro st s r h hr
    by_cases hz : (expand_memory st.memory st.p).getD st.p 0 = 0
    · rw [interpret_loop_exit hz] at h
      exact ⟨0, by rw [interpret_loop_exit hz]; exact h⟩
    · rw [interpret_loop_iter hz] at h
      cases hb : interpret_list 0 xs
          { st with memory := expand_memory st.memory st.p } with
      | mk st1 r1 =>
        rw [hb] at h
        cases r1 with
        | ok =>
          simp only [if_pos rfl] at h
          cases h
          exact absurd rfl hr
        | err e =>
          cases h
          obtain ⟨g, hg⟩ := hlist 0 _ s (.err e) hb (by simp)
          exact ⟨g, by rw [interpret_loop_iter hz, hg]⟩
        | panicked =>
          cases h
          obtain ⟨g, hg⟩ := hlist 0 _ s .panicked hb (by simp)
          exact ⟨g, by rw [interpret_loop_iter hz, hg]⟩
        | outOfFuel =>
          cases h
          exact absurd rfl hr
  | succ f ihf =>
    intro st s r h hr
    by_cases hz : (expand_memory st.memory st.p).getD st.p 0 = 0
    · rw [interpret_loop_exit hz] at h
      exact ⟨0, by rw [interpret_loop_exit hz]; exact h⟩
    · rw [interpret_loop_iter hz] at h
      cases hb : interpret_list (f + 1) xs
          { st with memory := expand_memory st.memory st.p } with
      | mk st1 r1 =>
        rw [hb] at h
        cases r1 with
        | ok =>
          simp only [Nat.succ_ne_zero, if_false] at h
          obtain ⟨g1, hg1⟩ := hlist (f + 1) _ st1 .ok hb (by simp)
          obtain ⟨g2, hg2⟩ := ihf st1 s r h hr
          refine ⟨max g1 g2 + 1, ?_⟩
          rw [interpret_loop_iter hz,
            interpret_list_mono (Nat.le_trans (Nat.le_max_left g1 g2)
              (Nat.le_succ _)) ys hg1 (by simp)]
          dsimp only
          rw [if_neg (Nat.succ_ne_zero _)]
          exact interpret_loop_mono (Nat.le_max_right g1 g2) ys hg2 hr
        | err e =>
          cases h
          obtain ⟨g, hg⟩ := hlist (f + 1) _ s (.err e) hb (by simp)
          exact ⟨g, by rw [interpret_loop_iter hz, hg]⟩
        | panicked =>
          cases h
          obtain ⟨g, hg⟩ := hlist (f + 1) _ s .panicked hb (by simp)
          exact ⟨g, by rw [interpret_loop_iter hz, hg]⟩
        | outOfFuel =>
          cases h
          exact absurd rfl hr

theorem isUnitDecrement_eq {z : Node} (h : isUnitDecrement z = true) :
    ∃ l c, z = .decrement 1 l c := by
  cases z <;> rw [isUnitDecrement] at h
  case decrement a l c =>
    have ha : a = 1 := by simpa using h
    exact ⟨l, c, by rw [ha]⟩
  all_goals exact absurd h (by simp)

/-- Replacing the zeroing loop by `SetCell(0)` preserves every finished
run exactly. -/
theorem exactSim_zl_to_set (lc cc l c : Nat) :
    ExactSim (.loop [.decrement 1 lc cc] l c) (.setCell 0 l c) := by
  intro fuel st s r h hr
  rw [interpret_node_loop] at h
  rcases zl_run lc cc fuel st with h1 | h1
  · rw [h1] at h
    cases h
    refine ⟨0, ?_⟩
    rw [interpret_node]
  · rw [h] at h1
    exact absurd h1 hr

/-- ... and conversely, `SetCell(0)`'s runs are reproduced by the loop. -/
theorem exactSim_set_to_zl (lc cc l c : Nat) :
    ExactSim (.setCell 0 l c) (.loop [.decrement 1 lc cc] l c) := by
  intro fuel st s r h hr
  rw [interpret_node] at h
  obtain ⟨g, hg⟩ := zl_term lc cc st
  refine ⟨g, ?_⟩
  rw [interpret_node_loop, hg, ← h]

theorem exactSim_child_A (z : Node)
    (hz : ExactSim z (collapse_set_zero z)) :
    ExactSim z (collapse_set_zero_node z) := by
  cases z
  case loop ch l c =>
    rw [collapse_set_zero_node]
    by_cases h1 : ch.length = 1
    · rw [if_pos h1]
      by_cases h2 : isUnitDecrement (ch.headD (.output 0 0)) = true
      · rw [if_pos h2]
        obtain ⟨lc, cc, hd⟩ := isUnitDecrement_eq h2
        have hch : ch = [.decrement 1 lc cc] := by
          cases ch with
          | nil => simp at h1
          | cons x rest =>
            cases rest with
            | nil =>
              simp only [List.headD_cons] at hd
              rw [hd]
            | cons y r2 => simp at h1
        rw [hch]
        exact exactSim_zl_to_set lc cc l c
      · rw [if_neg h2]
        exact exactSim_refl _
    · rw [if_neg h1]
      exact hz
  all_goals (rw [collapse_set_zero_node]; exact hz)

theorem exactSim_child_B (z : Node)
    (hz : ExactSim (collapse_set_zero z) z) :
    ExactSim (collapse_set_zero_node z) z := by
  cases z
  case loop ch l c =>
    rw [collapse_set_zero_node]
    by_cases h1 : ch.length = 1
    · rw [if_pos h1]
      by_cases h2 : isUnitDecrement (ch.headD (.output 0 0)) = true
      · rw [if_pos h2]
        obtain ⟨lc, cc, hd⟩ := isUnitDecrement_eq h2
        have hch : ch = [.decrement 1 lc cc] := by
          cases ch with
          | nil => simp at h1
          | cons x rest =>
            cases rest with
            | nil =>
              simp only [List.headD_cons] at hd
              rw [hd]
            | cons y r2 => simp at h1
        rw [hch]
        exact exactSim_set_to_zl lc cc l c
      · rw [if_neg h2]
        exact exactSim_refl _
    · rw [if_neg h1]
      exact hz
  all_goals (rw [collapse_set_zero_node]; exact hz)

theorem forall2_collapse_A (ch : List Node)
    (h : ∀ z ∈ ch, ExactSim z (collapse_set_zero_node z)) :
    List.Forall₂ ExactSim ch (collapse_nodes ch) := by
  induction ch with
  | nil => rw [collapse_nodes_nil]; exact List.Forall₂.nil
  | cons x rest ih =>
    rw [collapse_nodes_cons]
    exact List.Forall₂.cons (h x (List.mem_cons_self _ _))
      (ih fun z hz => h z (List.mem_cons_of_mem _ hz))

theorem forall2_collapse_B (ch : List Node)
    (h : ∀ z ∈ ch, ExactSim (collapse_set_zero_node z) z) :
    List.Forall₂ ExactSim (collapse_nodes ch) ch := by
  induction ch with
  | nil => rw [collapse_nodes_nil]; exact List.Forall₂.nil
  | cons x rest ih =>
    rw [collapse_nodes_cons]
    exact List.Forall₂.cons (h x (List.mem_cons_self _ _))
      (ih fun z hz => h z (List.mem_cons_of_mem _ hz))

/-- The collapse-zeroing-loops pass preserves every finished run exactly
(forward direction). -/
theorem sz_exact_A : ∀ x : Node, ExactSim x (collapse_set_zero x) := by
  refine Node.inductionOn (fun x => ExactSim x (collapse_set_zero x))
    ?_ ?_ ?_ ?_ ?_ ?_ ?_ ?_ ?_
  · intro ch l c hch
    intro fuel st s r h hr
    rw [interpret_node_program] at h
    obtain ⟨fuel1, h1⟩ := exactSim_list
      (forall2_collapse_A ch fun z hz => exactSim_child_A z (hch z hz))
      fuel st s r h hr
    exact ⟨fuel1, by rw [collapse_set_zero, interpret_node_program]; exact h1⟩
  · intro ch l c hch
    intro fuel st s r h hr
    rw [interpret_node_loop] at h
    obtain ⟨fuel1, h1⟩ := exactSim_loop
      (exactSim_list
        (forall2_collapse_A ch fun z hz => exactSim_child_A z (hch z hz)))
      fuel st s r h hr
    exact ⟨fuel1, by rw [collapse_set_zero, interpret_node_loop]; exact h1⟩
  all_goals (intros; intro fuel st s r h hr; exact ⟨fuel, by rw [collapse_set_zero]; exact h⟩)

/-- The collapse-zeroing-loops pass preserves every finished run exactly
(backward direction). -/
theorem sz_exact_B : ∀ x : Node, ExactSim (collapse_set_zero x) x := by
  refine Node.inductionOn (fun x => ExactSim (collapse_set_zero x) x)
    ?_ ?_ ?_ ?_ ?_ ?_ ?_ ?_ ?_
  · intro ch l c hch
    intro fuel st s r h hr
    rw [collapse_set_zero, interpret_node_program] at h
    obtain ⟨fuel1, h1⟩ := exactSim_list
      (forall2_collapse_B ch fun z hz => exactSim_child_B z (hch z hz))
      fuel st s r h hr
    exact ⟨fuel1, by rw [interpret_node_program]; exact h1⟩
  · intro ch l c hch
    intro fuel st s r h hr
    rw [collapse_set_zero, interpret_node_loop] at h
    obtain ⟨fuel1, h1⟩ := exactSim_loop
      (exactSim_list
        (forall2_collapse_B ch fun z hz => exactSim_child_B z (hch z hz)))
      fuel st s r h hr
    exact ⟨fuel1, by rw [interpret_node_loop]; exact h1⟩
  all_goals (intros; intro fuel st s r h hr; exact ⟨fuel, by rw [collapse_set_zero] at h; exact h⟩)

/-! ### Observational simulation, and claim C3 -/

/-- Every finished run of `t` is matched by a finished run of `t1` with the
same stop class, the same output, and the same final state on success. -/
def Sim (t t1 : Node) : Prop :=
  ∀ fuel st s r, interpret_node fuel t st = (s, r) → r ≠ .outOfFuel →
    ∃ fuel1 s1 r1, interpret_node fuel1 t1 st = (s1, r1) ∧ r1 ≠ .outOfFuel ∧
      obsEq (s, r) (s1, r1)

theorem sim_trans {t t1 t2 : Node} (h : Sim t t1) (h1 : Sim t1 t2) :
    Sim t t2 := by
  intro fuel st s r hrun hne
  obtain ⟨f1, s1, r1, e1, ne1, o1⟩ := h fuel st s r hrun hne
  obtain ⟨f2, s2, r2, e2, ne2, o2⟩ := h1 f1 st s1 r1 e1 ne1
  exact ⟨f2, s2, r2, e2, ne2, obsEq_trans o1 o2⟩

theorem sim_of_exact {t t1 : Node} (h : ExactSim t t1) : Sim t t1 := by
  intro fuel st s r hrun hne
  obtain ⟨f1, e1⟩ := h fuel st s r hrun hne
  exact ⟨f1, s, r, e1, hne, obsEq_refl _⟩

theorem sim_of_obs {t t1 : Node}
    (h : ∀ fuel st, obsEq (interpret_node fuel t st)
      (interpret_node fuel t1 st)) :
    Sim t t1 := by
  intro fuel st s r hrun hne
  cases e1 : interpret_node fuel t1 st with
  | mk s1 r1 =>
    have ho := h fuel st
    rw [hrun, e1] at ho
    refine ⟨fuel, s1, r1, e1, ?_, ho⟩
    intro hq
    exact hne ((obsEq_spin_iff ho).2 (by rw [hq]))

/-- Claim C3: for every program tree whose top-level `Program` has no
leading `Loop` children and every input byte sequence, each finished
(non-out-of-fuel) interpreter run of the tree is matched by a finished run
of the tree optimized by the default pipeline producing a byte-identical
output sequence, and conversely each finished run of the optimized tree is
matched by a finished run of the unoptimized tree with byte-identical
output. -/
theorem C3_optimizer_output_equiv (ch : List Node) (l c : Nat)
    (inp : List Nat) (hlead : headNotLoopList ch = true) :
    (∀ fuel s r, interpret (.program ch l c) inp fuel = (s, r) →
      r ≠ .outOfFuel →
      ∃ fuel1 s1 r1,
        interpret (apply_default_optimizations (.program ch l c)) inp fuel1 =
          (s1, r1) ∧ r1 ≠ .outOfFuel ∧ s1.output = s.output) ∧
    (∀ fuel s r,
      interpret (apply_default_optimizations (.program ch l c)) inp fuel =
        (s, r) → r ≠ .outOfFuel →
      ∃ fuel1 s1 r1, interpret (.program ch l c) inp fuel1 = (s1, r1) ∧
        r1 ≠ .outOfFuel ∧ s1.output = s.output) := by
  have hrcl : remove_comment_loop (.program ch l c) = .program ch l c :=
    remove_comment_loop_fix _ (by rw [noLeadingLoops]; exact hlead)
  have hpipe : apply_default_optimizations (.program ch l c) =
      collapse_set_zero (collapse_previous (collapse_next
        (collapse_decrements (collapse_increments (.program ch l c))))) := by
    rw [apply_default_optimizations, hrcl]
  have hA : Sim (.program ch l c)
      (apply_default_optimizations (.program ch l c)) := by
    rw [hpipe]
    exact sim_trans
      (sim_of_obs fun fuel st =>
        obsEq_symm (collapse_run_obs .increment (.program ch l c) fuel st))
      (sim_trans
        (sim_of_obs fun fuel st => obsEq_symm (collapse_run_obs .decrement
          (collapse_increments (.program ch l c)) fuel st))
        (sim_trans
          (sim_of_obs fun fuel st => obsEq_symm (collapse_run_obs .next
            (collapse_decrements (collapse_increments (.program ch l c)))
            fuel st))
          (sim_trans
            (sim_of_obs fun fuel st => obsEq_symm (collapse_run_obs .previous
              (collapse_next (collapse_decrements (collapse_increments
                (.program ch l c)))) fuel st))
            (sim_of_exact (sz_exact_A (collapse_previous (collapse_next
              (collapse_decrements (collapse_increments
                (.program ch l c))))))))))
  have hB : Sim (apply_default_optimizations (.program ch l c))
      (.program ch l c) := by
    rw [hpipe]
    exact sim_trans
      (sim_of_exact (sz_exact_B (collapse_previous (collapse_next
        (collapse_decrements (collapse_increments (.program ch l c)))))))
      (sim_trans
        (sim_of_obs (collapse_run_obs .previous
          (collapse_next (collapse_decrements (collapse_increments
            (.program ch l c))))))
        (sim_trans
          (sim_of_obs (collapse_run_obs .next
            (collapse_decrements (collapse_increments (.program ch l c)))))
          (sim_trans
            (sim_of_obs (collapse_run_obs .decrement
              (collapse_increments (.program ch l c))))
            (sim_of_obs (collapse_run_obs .increment (.program ch l c))))))
  refine ⟨?_, ?_⟩
  · intro fuel s r h hr
    obtain ⟨f1, s1, r1, e1, ne1, o1⟩ := hA fuel ⟨[], 0, inp, []⟩ s r h hr
    exact ⟨f1, s1, r1, e1, ne1, o1.2.1.symm⟩
  · intro fuel s r h hr
    obtain ⟨f1, s1, r1, e1, ne1, o1⟩ := hB fuel ⟨[], 0, inp, []⟩ s r h hr
    exact ⟨f1, s1, r1, e1, ne1, o1.2.1.symm⟩

/-- Claim C3 witness: the single-`Output` program with empty input. -/
theorem C3_optimizer_output_equiv_witness :
    headNotLoopList [Node.output 1 1] = true ∧
    ((∀ fuel s r, interpret (.program [.output 1 1] 0 0) [] fuel = (s, r) →
      r ≠ .outOfFuel →
      ∃ fuel1 s1 r1,
        interpret (apply_default_optimizations (.program [.output 1 1] 0 0))
          [] fuel1 = (s1, r1) ∧ r1 ≠ .outOfFuel ∧ s1.output = s.output) ∧
    (∀ fuel s r,
      interpret (apply_default_optimizations (.program [.output 1 1] 0 0))
        [] fuel = (s, r) → r ≠ .outOfFuel →
      ∃ fuel1 s1 r1, interpret (.program [.output 1 1] 0 0) [] fuel1 =
        (s1, r1) ∧ r1 ≠ .outOfFuel ∧ s1.output = s.output)) :=
  ⟨rfl, C3_optimizer_output_equiv [.output 1 1] 0 0 [] rfl⟩

end Rustfuck
